import Mathlib

/-!
Verification of the pymdownx-mahjong notation parser and renderer.

The definitions below are a shallow embedding of `pymdownx_mahjong/tiles.py`,
`parser.py`, `utils.py` and `renderer.py`.  Strings are processed as `List Char`;
the two regular expressions of the parser (`TILE_GROUP_PATTERN` and
`MELD_PATTERN`) are embedded as explicit scanners that reproduce the leftmost,
non-overlapping match semantics of `re.finditer` (for these particular patterns
the greedy matching is deterministic, so backtracking never changes the result).
Python exceptions are modelled with `Except`, and the parser's mutable
`self.errors` accumulator is modelled by explicitly returned error lists.
-/

namespace Mahjong

/-! ## Tile catalog (`tiles.py`) -/

structure TileInfo where
  asset_name : String
  display_name : String
deriving DecidableEq, Repr

/-- `_SUIT_NAMES` from `tiles.py`. -/
def suitName : Char → Option String
  | 'm' => some "Man"
  | 'p' => some "Pin"
  | 's' => some "Sou"
  | _ => none

/-- `_HONOR_NAMES` from `tiles.py`. -/
def honorName : Nat → Option String
  | 1 => some "East"
  | 2 => some "South"
  | 3 => some "West"
  | 4 => some "North"
  | 5 => some "White Dragon"
  | 6 => some "Green Dragon"
  | 7 => some "Red Dragon"
  | _ => none

/-- `get_tile_info` / `TILE_DATABASE` from `tiles.py`: suited tiles carry
numbers 1–9 plus the red five `0`; honours are `z1`–`z7`. -/
def getTileInfo (suit : Char) (number : Nat) : Option TileInfo :=
  match suitName suit with
  | some name =>
    if number = 0 then some ⟨"0" ++ String.singleton suit, "Red 5 " ++ name⟩
    else if number ≤ 9 then
      some ⟨toString number ++ String.singleton suit, toString number ++ " " ++ name⟩
    else none
  | none =>
    if suit = 'z' then (honorName number).map (fun n => ⟨toString number ++ "z", n⟩)
    else none

/-! ## Parser data model (`parser.py`) -/

inductive MeldType where
  | chi | pon | kan_open | kan_closed | kan_added
deriving DecidableEq, Repr

inductive MeldSource where
  | left | across | right | self
deriving DecidableEq, Repr

structure Tile where
  suit : Char
  number : Nat
  is_rotated : Bool := false
  is_added : Bool := false
deriving DecidableEq, Repr

/-- `Tile.notation` in the source (renamed here). -/
def Tile.nota (t : Tile) : String := toString t.number ++ String.singleton t.suit

structure Meld where
  tiles : List Tile
  meld_type : MeldType
  source : MeldSource := .self
deriving DecidableEq, Repr

def Meld.is_open (m : Meld) : Bool := m.meld_type ≠ .kan_closed

structure Hand where
  closed_tiles : List Tile := []
  melds : List Meld := []
  dora_indicators : List Tile := []
  uradora_indicators : List Tile := []
  draw_tile : Option Tile := none
deriving DecidableEq, Repr

def Hand.all_tiles (h : Hand) : List Tile :=
  h.closed_tiles ++ (h.melds.map Meld.tiles).flatten ++
    (match h.draw_tile with | some t => [t] | none => [])

def Hand.total_tile_count (h : Hand) : Nat :=
  h.closed_tiles.length + (h.melds.map (fun m => m.tiles.length)).sum +
    (match h.draw_tile with | some _ => 1 | none => 0)

/-! ## Character classes and small helpers -/

def isFiller (c : Char) : Bool := c = '_' || c = ' ' || c = '|'

def isSuitChar (c : Char) : Bool := c = 'm' || c = 'p' || c = 's' || c = 'z'

def isOpenBracket (c : Char) : Bool := c = '[' || c = '('

def isCloseBracket (c : Char) : Bool := c = ']' || c = ')'

def isSourceMark (c : Char) : Bool := c = '<' || c = '^' || c = '>'

def digitVal (c : Char) : Nat := c.toNat - '0'.toNat

/-- Python's `str.strip()` on a character list. -/
def trimChars (cs : List Char) : List Char :=
  ((cs.dropWhile Char.isWhitespace).reverse.dropWhile Char.isWhitespace).reverse

/-- `"sep".join(l)` (used for `" ".join(classes)` and `"; ".join(errors)`). -/
def joinWith (sep : String) : List String → String
  | [] => ""
  | [x] => x
  | x :: xs => x ++ sep ++ joinWith sep xs

/-! ## Tile-group scanning (`TILE_GROUP_PATTERN = ([0-9]+)([mpsz])`)

`_parse_tiles` first strips the filler characters, then walks the cleaned
string with `finditer`, recording a gap whenever a character is not covered
by a match.  For this pattern a match starting at a digit is forced to be the
maximal digit run followed by a suit letter, so `finditer` is equivalent to
the single left-to-right pass below (`run` holds the pending digit run,
reversed). The returned flag is true iff some character of the input was not
covered by a match, which for a non-empty input is exactly the
`invalid_notation` condition of the source. -/

def cleanChars (cs : List Char) : List Char := cs.filter (fun c => !isFiller c)

def scanGroupsGo : List Char → List Char → List (List Char × Char) × Bool
  | [], [] => ([], false)
  | [], _ :: _ => ([], true)
  | c :: cs, run =>
    if c.isDigit then scanGroupsGo cs (c :: run)
    else if isSuitChar c then
      match run with
      | [] => ((scanGroupsGo cs []).1, true)
      | _ :: _ =>
        let r := scanGroupsGo cs []
        ((run.reverse, c) :: r.1, r.2)
    else ((scanGroupsGo cs []).1, true)

def scanGroups (cs : List Char) : List (List Char × Char) × Bool := scanGroupsGo cs []

/-- The inner digit loop of `_parse_tiles`: each digit of a matched group is
checked against the catalog; invalid digits produce an error and are skipped. -/
def groupTiles (suit : Char) : List Char → List Tile × List String
  | [] => ([], [])
  | d :: ds =>
    let n := digitVal d
    let r := groupTiles suit ds
    match getTileInfo suit n with
    | none => (r.1, ("Invalid tile: " ++ toString n ++ String.singleton suit) :: r.2)
    | some _ => ({ suit := suit, number := n } :: r.1, r.2)

/-- `MahjongParser._parse_tiles`. -/
def parseTilesCore (cs : List Char) : List Tile × List String :=
  let clean := cleanChars cs
  if clean.isEmpty then ([], [])
  else
    let s := scanGroups clean
    let parsed := s.1.map (fun g => groupTiles g.2 g.1)
    let tiles := (parsed.map Prod.fst).flatten
    let tileErrs := (parsed.map Prod.snd).flatten
    let invalid := s.2 || s.1.isEmpty
    (tiles, tileErrs ++ (if invalid then ["Invalid tile notation: " ++ String.mk clean] else []))

/-! ## Meld matching (`MELD_PATTERN`)

`MELD_PATTERN = (\[|\()([0-9]+)(\+)?([0-9])?([mpsz])([<^>])?(\]|\))`.
A match attempt at a given position is deterministic: the digit run is
maximal (a digit can never satisfy the following `[mpsz]`), the optional
`+` and the optional single digit can never succeed by matching less, and
the optional source mark does not overlap with the closing bracket class. -/

structure MeldMatch where
  openB : Char
  baseDigits : List Char
  plusMark : Bool
  addedDigit : Option Char
  suit : Char
  sourceChar : Option Char
  closeB : Char
deriving DecidableEq, Repr

/-- `match.group(0)`: the exact text of the match. -/
def MeldMatch.text (m : MeldMatch) : String :=
  String.mk ([m.openB] ++ m.baseDigits ++ (if m.plusMark then ['+'] else []) ++
    m.addedDigit.toList ++ [m.suit] ++ m.sourceChar.toList ++ [m.closeB])

/-- The optional `(\+)?([0-9])?` part of `MELD_PATTERN`. -/
def takePlus : List Char → Bool × Option Char × List Char
  | '+' :: r =>
    match r with
    | e :: r' => if e.isDigit then (true, some e, r') else (true, none, e :: r')
    | [] => (true, none, [])
  | r => (false, none, r)

/-- The optional `([<^>])?` part of `MELD_PATTERN`. -/
def takeSource : List Char → Option Char × List Char
  | c :: r => if isSourceMark c then (some c, r) else (none, c :: r)
  | [] => (none, [])

theorem takePlus_len {r : List Char} {b : Bool} {oc : Option Char} {r2 : List Char}
    (h : takePlus r = (b, oc, r2)) : r2.length ≤ r.length := by
  unfold takePlus at h
  split at h
  · rename_i r'
    match r', h with
    | e :: r'', h =>
      simp only at h
      split at h
      · simp at h; simp [h.2.2]; omega
      · simp at h; simp [h.2.2]
    | [], h => simp at h; simp [h.2.2]
  · simp at h; simp [h.2.2]

theorem takeSource_len {r : List Char} {oc : Option Char} {r2 : List Char}
    (h : takeSource r = (oc, r2)) : r2.length ≤ r.length := by
  unfold takeSource at h
  split at h
  · split at h
    · simp at h
      simp [h.2]
    · simp at h; simp [h.2]
  · simp at h; simp [h.2]

/-- Attempt to match `MELD_PATTERN` exactly at the head of the list, returning
the parsed groups and the remaining characters. -/
def matchMeldAt : List Char → Option (MeldMatch × List Char)
  | [] => none
  | c :: cs =>
    if isOpenBracket c then
      match cs.takeWhile Char.isDigit, takePlus (cs.dropWhile Char.isDigit) with
      | d :: ds, (plus, added, s :: r3) =>
        if isSuitChar s then
          match takeSource r3 with
          | (src, b :: r5) =>
            if isCloseBracket b then
              some (⟨c, d :: ds, plus, added, s, src, b⟩, r5)
            else none
          | (_, []) => none
        else none
      | _, _ => none
    else none

/-- `MELD_PATTERN.finditer`: leftmost, non-overlapping matches together with
the unmatched characters (the latter realize `MELD_PATTERN.sub("", ...)`).
The fuel argument only serves structural recursion; `cs.length` is always
sufficient because a match consumes at least four characters. -/
def scanMeldsF : Nat → List Char → List MeldMatch × List Char
  | 0, cs => ([], cs)
  | _ + 1, [] => ([], [])
  | fuel + 1, c :: cs =>
    match matchMeldAt (c :: cs) with
    | some (m, rest) =>
      let r := scanMeldsF fuel rest
      (m :: r.1, r.2)
    | none =>
      let r := scanMeldsF fuel cs
      (r.1, c :: r.2)

def scanMelds (cs : List Char) : List MeldMatch × List Char := scanMeldsF cs.length cs

theorem matchMeldAt_length {cs : List Char} {m : MeldMatch} {rest : List Char}
    (h : matchMeldAt cs = some (m, rest)) : rest.length < cs.length := by
  match cs with
  | [] => simp [matchMeldAt] at h
  | c :: cs =>
    have hdw : (cs.dropWhile Char.isDigit).length ≤ cs.length :=
      (List.dropWhile_sublist Char.isDigit).length_le
    rw [matchMeldAt] at h
    split at h
    · split at h
      · rename_i d ds plus added s r3 htake hplus
        have hr3 : r3.length < cs.length := by
          have := takePlus_len hplus
          simp at this
          omega
        split at h
        · split at h
          · rename_i src b r5 hsrc
            have hr5 : r5.length < r3.length := by
              have := takeSource_len hsrc
              simp at this
              omega
            split at h
            · simp at h
              rw [← h.2]
              simp
              omega
            · exact absurd h (by simp)
          · exact absurd h (by simp)
        · exact absurd h (by simp)
      · exact absurd h (by simp)
    · exact absurd h (by simp)

/-! ## Meld classification (`MahjongParser._parse_melds` / `_is_sequence`) -/

/-- Python `sorted` on a list of naturals (insertion sort, ascending). -/
def insertSorted (n : Nat) : List Nat → List Nat
  | [] => [n]
  | m :: ms => if n ≤ m then n :: m :: ms else m :: insertSorted n ms

def sortNats (l : List Nat) : List Nat := l.foldr insertSorted []

/-- Python `set(...)` membership/cardinality, realized as first-occurrence
deduplication. -/
def dedupChars (l : List Char) : List Char :=
  l.foldl (fun acc c => if c ∈ acc then acc else acc ++ [c]) []

/-- `MahjongParser._is_sequence`: three tiles of one suited (non-honor) suit
whose numbers, with the red five `0` read as `5`, are consecutive once sorted. -/
def isSequence (tiles : List Tile) : Bool :=
  if tiles.length ≠ 3 then false
  else
    let suits := dedupChars (tiles.map (fun t => t.suit))
    if suits.length ≠ 1 ∨ 'z' ∈ suits then false
    else
      match sortNats (tiles.map (fun t => if t.number = 0 then 5 else t.number)) with
      | [a, b, c] => a + 1 = b && b + 1 = c
      | _ => false

def sourceOfChar : Option Char → MeldSource
  | some '<' => .left
  | some '^' => .across
  | some '>' => .right
  | _ => .self

/-- In-place update of one list element (`tiles[i].flag = True` in Python). -/
def modifyAt {α : Type} : Nat → (α → α) → List α → List α
  | _, _, [] => []
  | 0, f, x :: xs => f x :: xs
  | i + 1, f, x :: xs => x :: modifyAt i f xs

/-- The rotated index chosen by `_parse_melds`: `<` rotates index 0, `^`
index 1, `>` index 3 for an open kan and index 2 otherwise. -/
def rotationIndex (src : MeldSource) (mt : MeldType) : Nat :=
  if src = .left then 0 else if src = .across then 1
  else if mt = .kan_open then 3 else 2

/-- The rotation/added-flag assignment of `_parse_melds` (executed only for a
non-self source); an added kan additionally marks its last tile as rotated
and added. -/
def applyRotation (tiles : List Tile) (mt : MeldType) (src : MeldSource) : List Tile :=
  let t1 := modifyAt (rotationIndex src mt) (fun t => { t with is_rotated := true }) tiles
  if mt = .kan_added then
    modifyAt (t1.length - 1) (fun t => { t with is_rotated := true, is_added := true }) t1
  else t1

def bracketMismatch (m : MeldMatch) : Bool :=
  (m.openB = '[' && m.closeB ≠ ']') || (m.openB = '(' && m.closeB ≠ ')')

def meldIsClosed (m : MeldMatch) : Bool := m.openB = '[' && m.closeB = ']'

def meldTileNotation (m : MeldMatch) : List Char :=
  if m.plusMark && m.addedDigit.isSome then m.baseDigits ++ m.addedDigit.toList ++ [m.suit]
  else m.baseDigits ++ [m.suit]

/-- The tile-count shape classification of `_parse_melds` (the
`if/elif` chain choosing the meld type, `none` = "invalid meld size"). -/
def classifyMeld (isAddedKan isClosed : Bool) (tileCount : Nat) (tiles : List Tile) :
    Option MeldType :=
  if isAddedKan ∧ tileCount = 4 then some .kan_added
  else if isClosed ∧ tileCount = 4 then some .kan_closed
  else if tileCount = 4 then some .kan_open
  else if tileCount = 3 then some (if isSequence tiles then .chi else .pon)
  else none

/-- The body of the per-match loop of `_parse_melds`: either a meld, or
`none` for a `continue`; the second component is the errors appended to
`self.errors` during this iteration (including those raised by the nested
`_parse_tiles` call). -/
def processMeldMatch (mm : MeldMatch) : Option Meld × List String :=
  if bracketMismatch mm then
    (none, ["Mismatched brackets in meld: " ++ mm.text])
  else if mm.plusMark && mm.addedDigit.isNone then
    (none, ["Added kan notation requires digit after '+': " ++ mm.text])
  else
    let isAddedKan := mm.plusMark && mm.addedDigit.isSome
    let r := parseTilesCore (meldTileNotation mm)
    let tiles := r.1
    if tiles.isEmpty then (none, r.2)
    else
      let isClosed := meldIsClosed mm
      let tileCount := tiles.length
      if isClosed && mm.sourceChar.isSome then
        (none, r.2 ++ ["Closed kan cannot have source marker: " ++ mm.text])
      else
        match classifyMeld isAddedKan isClosed tileCount tiles with
        | none => (none, r.2 ++ ["Invalid meld size: " ++ toString tileCount ++ " tiles"])
        | some mt =>
          let src := sourceOfChar mm.sourceChar
          let tiles2 := if src ≠ .self ∧ tiles ≠ [] then applyRotation tiles mt src else tiles
          (some ⟨tiles2, mt, src⟩, r.2)

def processMatches : List MeldMatch → List Meld × List String
  | [] => ([], [])
  | mm :: rest =>
    let r := processMeldMatch mm
    let rr := processMatches rest
    (r.1.toList ++ rr.1, r.2 ++ rr.2)

/-- `MahjongParser._parse_melds`. -/
def parseMeldsCore (cs : List Char) : List Meld × List String :=
  processMatches (scanMelds cs).1

/-! ## Count validation and `parse` -/

/-- `collections.Counter` over `(suit, number)` pairs: counts keyed in
first-occurrence order. -/
def bumpCount (k : Char × Nat) : List ((Char × Nat) × Nat) → List ((Char × Nat) × Nat)
  | [] => [(k, 1)]
  | (k', c) :: rest => if k' = k then (k', c + 1) :: rest else (k', c) :: bumpCount k rest

def tally (ks : List (Char × Nat)) : List ((Char × Nat) × Nat) :=
  ks.foldl (fun acc k => bumpCount k acc) []

/-- `MahjongParser._validate_tile_counts`. -/
def validateTileCounts (h : Hand) : List String :=
  (tally (h.all_tiles.map (fun t => (t.suit, t.number)))).filterMap
    (fun kc =>
      if kc.2 > 4 then
        some ("Invalid tile count: " ++ toString kc.1.2 ++ String.singleton kc.1.1 ++
          " appears " ++ toString kc.2 ++ " times (max 4)")
      else none)

/-- The body of `MahjongParser.parse` up to the final raise-or-return:
the assembled hand together with all accumulated error messages, in the
order the source accumulates them (meld errors, closed-tile errors, count
errors). -/
def parseCore (input : String) : Hand × List String :=
  let cs := trimChars input.data
  let scanned := scanMelds cs
  let meldsR := processMatches scanned.1
  let closedPart := trimChars scanned.2
  let closedR := parseTilesCore closedPart
  let hand : Hand := { closed_tiles := closedR.1, melds := meldsR.1 }
  (hand, meldsR.2 ++ closedR.2 ++ validateTileCounts hand)

/-- `MahjongParser.parse`: raises `ParseError("; ".join(errors))` iff any
error was accumulated, otherwise returns the hand. -/
def parse (input : String) : Except String Hand :=
  let r := parseCore input
  if r.2.isEmpty then .ok r.1 else .error (joinWith "; " r.2)

/-- `MahjongParser.parse_tiles`. -/
def parse_tiles (input : String) : Except String (List Tile) :=
  let r := parseTilesCore input.data
  if r.2.isEmpty then .ok r.1 else .error (joinWith "; " r.2)

/-! ## `utils.apply_hand_options` -/

structure HandOptions where
  dora : Option String := none
  uradora : Option String := none
  draw : Option String := none
deriving DecidableEq, Repr

/-- The `if "dora" in options` block of `utils.apply_hand_options`: the
sub-notation is run through the full `parser.parse`, the indicator list is
the sub-hand's `all_tiles`. -/
def applyDoraOpt (hand : Hand) (v? : Option String) : Hand × List String :=
  match v? with
  | none => (hand, [])
  | some v =>
    match parse v with
    | .ok dh => ({ hand with dora_indicators := dh.all_tiles }, [])
    | .error e => (hand, ["Invalid dora notation: " ++ e])

/-- The `if "uradora" in options` block of `utils.apply_hand_options`. -/
def applyUradoraOpt (s : Hand × List String) (v? : Option String) : Hand × List String :=
  match v? with
  | none => s
  | some v =>
    match parse v with
    | .ok dh => ({ s.1 with uradora_indicators := dh.all_tiles }, s.2)
    | .error e => (s.1, s.2 ++ ["Invalid uradora notation: " ++ e])

/-- The `if "draw" in options` block of `utils.apply_hand_options`: the draw
tile becomes the sub-hand's first closed tile when one exists. -/
def applyDrawOpt (s : Hand × List String) (v? : Option String) : Hand × List String :=
  match v? with
  | none => s
  | some v =>
    match parse v with
    | .ok dh =>
      match dh.closed_tiles with
      | t :: _ => ({ s.1 with draw_tile := some t }, s.2)
      | [] => s
    | .error e => (s.1, s.2 ++ ["Invalid draw notation: " ++ e])

/-- `utils.apply_hand_options`: the three option blocks run in order,
accumulating error messages. -/
def apply_hand_options (hand : Hand) (opts : HandOptions) : Hand × List String :=
  applyDrawOpt (applyUradoraOpt (applyDoraOpt hand opts.dora) opts.uradora) opts.draw

/-! ## Renderer (`renderer.py`)

Only the parts reachable from the claims are embedded: tile/meld rendering
and the asset-identifier disambiguation.  The on-disk SVG assets are not part
of the sources; the processed content produced by the external asset-loading
collaborator (`_load_and_process_svg`) is therefore a parameter (`loadSvg`),
`none` standing for the `FileNotFoundError`/`TypeError` fallback.  The global
`_svg_id_counter` is modelled by explicit state passing of a `Nat`. -/

structure Renderer where
  theme : String := "light"
  closed_kan_style : String := "outer"
  css_class : String := "mahjong-hand"
  loadSvg : String → String → Option String

def backTileHTML : String := "<span class=\"mahjong-tile mahjong-tile-back\"></span>"

/-- `MahjongRenderer._placeholder_svg` (tile size constants 45×60 inlined). -/
def placeholderSvg (info : TileInfo) : String :=
  "<svg xmlns=\"http://www.w3.org/2000/svg\" width=\"45\" height=\"60\" viewBox=\"0 0 300 400\">" ++
  "<rect width=\"300\" height=\"400\" fill=\"#f0f0f0\" stroke=\"#ccc\" stroke-width=\"4\" rx=\"20\"/>" ++
  "<text x=\"150\" y=\"220\" text-anchor=\"middle\" font-size=\"48\" fill=\"#999\">" ++
  info.display_name ++ "</text></svg>"

/-- The literal head of the pattern `id="([^"]+)"`. -/
def idHead : List Char := ['i', 'd', '=', '"']

/-- The literal head of the replacement pattern `href="#{old_id}"`. -/
def hrefHead : List Char := ['h', 'r', 'e', 'f', '=', '"', '#']

/-- The literal head of the replacement pattern `url(#{old_id})`. -/
def urlHead : List Char := ['u', 'r', 'l', '(', '#']

/-- Not-a-quote test used for the capture group `[^"]+`. -/
def notQuote (c : Char) : Bool := c ≠ '"'

/-- `_RE_ID.findall`: all non-overlapping matches of `id="([^"]+)"`, leftmost
first.  A match at a position needs the literal `id="`, a nonempty run of
non-quote characters, and a closing quote (the run's `dropWhile` remainder
is nonempty exactly when it starts with the closing `"`); the scan then
resumes after the closing quote.  On a failed match the scan resumes one
character further, as `re.finditer` does.  Fuel-driven for structural
recursion; `cs.length` always suffices. -/
def findIdsF : Nat → List Char → List (List Char)
  | 0, _ => []
  | _ + 1, [] => []
  | fuel + 1, c :: cs =>
    if idHead.isPrefixOf (c :: cs) then
      if ((c :: cs).drop 4).takeWhile notQuote ≠ [] ∧
          ((c :: cs).drop 4).dropWhile notQuote ≠ [] then
        ((c :: cs).drop 4).takeWhile notQuote ::
          findIdsF fuel ((((c :: cs).drop 4).dropWhile notQuote).drop 1)
      else findIdsF fuel cs
    else findIdsF fuel cs

def findIds (cs : List Char) : List (List Char) := findIdsF cs.length cs

/-- Python `str.replace` (all leftmost non-overlapping occurrences); the
patterns used in `_make_ids_unique` are never empty. -/
def replaceAllF : Nat → List Char → List Char → List Char → List Char
  | 0, s, _, _ => s
  | fuel + 1, s, pat, rep =>
    match s with
    | [] => []
    | c :: cs =>
      if pat.isPrefixOf (c :: cs) then
        rep ++ replaceAllF fuel (List.drop pat.length (c :: cs)) pat rep
      else c :: replaceAllF fuel cs pat rep

def replaceAll (s pat rep : List Char) : List Char :=
  if pat.isEmpty then s else replaceAllF s.length s pat rep

/-- Python `set(...)` iteration, realized in first-occurrence order. -/
def dedupLists (l : List (List Char)) : List (List Char) :=
  l.foldl (fun acc x => if x ∈ acc then acc else acc ++ [x]) []

def idPat (x : List Char) : List Char := 'i' :: 'd' :: '=' :: '"' :: (x ++ ['"'])

def hrefPat (x : List Char) : List Char :=
  'h' :: 'r' :: 'e' :: 'f' :: '=' :: '"' :: '#' :: (x ++ ['"'])

def urlPat (x : List Char) : List Char := 'u' :: 'r' :: 'l' :: '(' :: '#' :: (x ++ [')'])

/-- `MahjongRenderer._make_ids_unique`. -/
def makeIdsUnique (svg : List Char) (pfx : List Char) : List Char :=
  (dedupLists (findIds svg)).foldl
    (fun s oldId =>
      let newId := pfx ++ oldId
      let s1 := replaceAll s (idPat oldId) (idPat newId)
      let s2 := replaceAll s1 (hrefPat oldId) (hrefPat newId)
      replaceAll s2 (urlPat oldId) (urlPat newId)) svg

/-- The prefix `f"mj{next(_svg_id_counter)}_"`. -/
def mjPfx (n : Nat) : List Char := 'm' :: 'j' :: ((toString n).data ++ ['_'])

/-- The theme resolution at the top of `_get_svg_content` (`theme or ...`,
where an absent or empty argument falls back to the renderer theme). -/
def resolveTheme (cfg : Renderer) (t : Option String) : String :=
  match t with
  | some s => if s = "" then (if cfg.theme = "auto" then "light" else cfg.theme) else s
  | none => if cfg.theme = "auto" then "light" else cfg.theme

/-- `MahjongRenderer._get_svg_content`. -/
def getSvgContent (cfg : Renderer) (info : TileInfo) (t : Option String) (ctr : Nat) :
    String × Nat :=
  let svg :=
    match cfg.loadSvg info.asset_name (resolveTheme cfg t) with
    | some content => content
    | none => placeholderSvg info
  (String.mk (makeIdsUnique svg.data (mjPfx ctr)), ctr + 1)

/-- `MahjongRenderer._get_themed_svg_content`. -/
def getThemedSvgContent (cfg : Renderer) (info : TileInfo) (ctr : Nat) : String × Nat :=
  let l := getSvgContent cfg info (some "light") ctr
  let d := getSvgContent cfg info (some "dark") l.2
  ("<span class=\"mahjong-tile-light\">" ++ l.1 ++ "</span><span class=\"mahjong-tile-dark\">" ++
    d.1 ++ "</span>", d.2)

/-- `MahjongRenderer._render_tile`. -/
def renderTile (cfg : Renderer) (t : Tile) (ctr : Nat) : String × Nat :=
  match getTileInfo t.suit t.number with
  | none =>
    ("<span class=\"mahjong-tile mahjong-tile-unknown\" data-tile=\"" ++ t.nota ++ "\">?</span>",
      ctr)
  | some info =>
    let classes := ["mahjong-tile"]
      ++ (if t.is_rotated then ["mahjong-tile-rotated"] else [])
      ++ (if t.is_added then ["mahjong-tile-added"] else [])
      ++ (if cfg.theme = "light" ∨ cfg.theme = "dark" then ["mahjong-theme-" ++ cfg.theme] else [])
    let classStr := joinWith " " classes
    let titleAttr := " title=\"" ++ info.display_name ++ "\""
    let sv := if cfg.theme = "auto" then getThemedSvgContent cfg info ctr
      else getSvgContent cfg info none ctr
    ("<span class=\"" ++ classStr ++ "\" data-tile=\"" ++ t.nota ++ "\"" ++ titleAttr ++ ">" ++
      sv.1 ++ "</span>", sv.2)

/-- A sequence of tiles rendered left to right (the non-closed-kan branch of
`_render_standard_meld`, and also `render_tiles`' body). -/
def renderTilesThread (cfg : Renderer) : List Tile → Nat → List String × Nat
  | [], c => ([], c)
  | t :: ts, c =>
    ((renderTile cfg t c).1 :: (renderTilesThread cfg ts (renderTile cfg t c).2).1,
      (renderTilesThread cfg ts (renderTile cfg t c).2).2)

/-- One position of `_render_standard_meld`: a back glyph when this is a
closed kan and `i` is a hidden position for the configured style, the
rendered tile otherwise. -/
def standardMeldPart (cfg : Renderer) (mt : MeldType) (t : Tile) (i c : Nat) : String × Nat :=
  if mt = .kan_closed then
    if (if cfg.closed_kan_style = "inner" then i = 1 ∨ i = 2 else i = 0 ∨ i = 3) then
      (backTileHTML, c)
    else renderTile cfg t c
  else renderTile cfg t c

/-- The `enumerate` loop of `MahjongRenderer._render_standard_meld`. -/
def renderStandardMeldGo (cfg : Renderer) (mt : MeldType) :
    List Tile → Nat → Nat → List String × Nat
  | [], _, c => ([], c)
  | t :: ts, i, c =>
    ((standardMeldPart cfg mt t i c).1 ::
        (renderStandardMeldGo cfg mt ts (i + 1) (standardMeldPart cfg mt t i c).2).1,
      (renderStandardMeldGo cfg mt ts (i + 1) (standardMeldPart cfg mt t i c).2).2)

/-- `MahjongRenderer._render_standard_meld` (the parts list before joining). -/
def renderStandardMeld (cfg : Renderer) (m : Meld) (ctr : Nat) : List String × Nat :=
  renderStandardMeldGo cfg m.meld_type m.tiles 0 ctr

/-! ## General lemmas about the embedding -/

theorem joinWith_has_mem {sep x : String} {l : List String} (h : x ∈ l) :
    x.data <:+: (joinWith sep l).data := by
  induction l with
  | nil => cases h
  | cons y ys ih =>
    rw [List.mem_cons] at h
    cases ys with
    | nil =>
      rcases h with rfl | h
      · exact List.infix_refl _
      · cases h
    | cons z zs =>
      rcases h with rfl | h
      · show x.data <:+: (x ++ sep ++ joinWith sep (z :: zs)).data
        rw [String.data_append, String.data_append, List.append_assoc]
        exact (List.prefix_append _ _).isInfix
      · show x.data <:+: (y ++ sep ++ joinWith sep (z :: zs)).data
        rw [String.data_append, String.data_append, List.append_assoc]
        exact ((ih h).trans ((List.suffix_append _ _).isInfix)).trans
          ((List.suffix_append _ _).isInfix)

theorem trimChars_subset {cs : List Char} {c : Char} (h : c ∈ trimChars cs) : c ∈ cs := by
  unfold trimChars at h
  rw [List.mem_reverse] at h
  have h2 := (List.dropWhile_sublist Char.isWhitespace).subset h
  rw [List.mem_reverse] at h2
  exact (List.dropWhile_sublist Char.isWhitespace).subset h2

theorem scanMeldsF_no_bracket {cs : List Char}
    (h : ∀ c ∈ cs, isOpenBracket c = false) (fuel : Nat) :
    scanMeldsF fuel cs = ([], cs) := by
  induction fuel generalizing cs with
  | zero => rfl
  | succ fuel ih =>
    cases cs with
    | nil => rfl
    | cons c cs' =>
      have hm : matchMeldAt (c :: cs') = none := by
        rw [matchMeldAt, h c (by simp)]
        simp
      rw [scanMeldsF, hm]
      have h' : ∀ d ∈ cs', isOpenBracket d = false :=
        fun d hd => h d (List.mem_cons_of_mem _ hd)
      show ((scanMeldsF fuel cs').1, c :: (scanMeldsF fuel cs').2) = ([], c :: cs')
      rw [ih h']

/-! ## C10: empty and filler-only input -/

/-- C10: `parse` on the empty string, or on a string consisting only of the
filler characters space, underscore and pipe, succeeds and returns the empty
hand (no closed tiles, no melds, no draw tile); no "no hand notation" error
exists at the parser level. -/
theorem c10_empty_or_filler_parse_ok :
    parse "" = .ok {} ∧
    ∀ s : String, (∀ c ∈ s.data, c = ' ' ∨ c = '_' ∨ c = '|') → parse s = .ok {} := by
  constructor
  · rfl
  · intro s hs
    have hfill : ∀ c ∈ trimChars s.data, c = ' ' ∨ c = '_' ∨ c = '|' :=
      fun c hc => hs c (trimChars_subset hc)
    have hnb : ∀ c ∈ trimChars s.data, isOpenBracket c = false := by
      intro c hc
      rcases hfill c hc with h | h | h <;> simp [h, isOpenBracket]
    have hscan : scanMelds (trimChars s.data) = ([], trimChars s.data) :=
      scanMeldsF_no_bracket hnb _
    have hclean : cleanChars (trimChars (trimChars s.data)) = [] := by
      refine List.filter_eq_nil_iff.mpr ?_
      intro c hc
      have : c ∈ trimChars s.data := trimChars_subset hc
      rcases hfill c this with h | h | h <;> simp [h, isFiller]
    have htc : parseTilesCore (trimChars (trimChars s.data)) = ([], []) := by
      unfold parseTilesCore
      rw [hclean]
      rfl
    have hcore : parseCore s = ({}, []) := by
      simp only [parseCore, hscan]
      rw [htc]
      rfl
    unfold parse
    rw [hcore]
    rfl

/-! ## C4: single-call error aggregation -/

/-- C4: every `parse` call either returns a fully built hand (exactly when no
error was accumulated) or fails with the single `"; "`-joined aggregation of
all accumulated errors — meld, tile and count errors together — each of which
occurs verbatim inside the failure message; no partially built hand is ever
returned on failure. -/
theorem c4_parse_error_aggregation (input : String) :
    ((parseCore input).2 = [] ∧ parse input = .ok (parseCore input).1) ∨
    ((parseCore input).2 ≠ [] ∧
      parse input = .error (joinWith "; " (parseCore input).2) ∧
      ∀ e ∈ (parseCore input).2, e.data <:+: (joinWith "; " (parseCore input).2).data) := by
  by_cases h : (parseCore input).2 = []
  · refine Or.inl ⟨h, ?_⟩
    simp only [parse, h]
    rfl
  · refine Or.inr ⟨h, ?_, fun e he => joinWith_has_mem he⟩
    have hne : (parseCore input).2.isEmpty = false := by simp [List.isEmpty_iff, h]
    simp only [parse, hne]
    rfl

theorem c4_parse_error_aggregation_witness :
    (parseCore "12x4m").2 ≠ [] ∧
      parse "12x4m" = .error (joinWith "; " (parseCore "12x4m").2) := by
  rcases c4_parse_error_aggregation "12x4m" with ⟨h, _⟩ | ⟨h1, h2, _⟩
  · exact absurd h (by decide)
  · exact ⟨h1, h2⟩

/-! ## C3: per-tile count ceiling -/

def lookupCount (k : Char × Nat) : List ((Char × Nat) × Nat) → Option Nat
  | [] => none
  | (k', c) :: rest => if k' = k then some c else lookupCount k rest

theorem lookupCount_bump_self (k : Char × Nat) (acc : List ((Char × Nat) × Nat)) :
    lookupCount k (bumpCount k acc) = some ((lookupCount k acc).getD 0 + 1) := by
  induction acc with
  | nil => simp [bumpCount, lookupCount]
  | cons kc rest ih =>
    obtain ⟨k', c⟩ := kc
    by_cases hk : k' = k
    · subst hk
      simp [bumpCount, lookupCount]
    · simp [bumpCount, lookupCount, hk, ih]

theorem lookupCount_bump_other {k x : Char × Nat} (h : x ≠ k)
    (acc : List ((Char × Nat) × Nat)) :
    lookupCount k (bumpCount x acc) = lookupCount k acc := by
  induction acc with
  | nil => simp [bumpCount, lookupCount, h]
  | cons kc rest ih =>
    obtain ⟨k', c⟩ := kc
    by_cases hk : k' = x
    · subst hk
      simp [bumpCount, lookupCount, h]
    · simp [bumpCount, lookupCount, hk, ih]

theorem lookupCount_foldl_bump (ks : List (Char × Nat)) :
    ∀ (acc : List ((Char × Nat) × Nat)) (k : Char × Nat),
      lookupCount k (ks.foldl (fun a x => bumpCount x a) acc) =
        match lookupCount k acc with
        | some c => some (c + ks.count k)
        | none => if 0 < ks.count k then some (ks.count k) else none := by
  induction ks with
  | nil =>
    intro acc k
    cases h : lookupCount k acc <;> simp [h]
  | cons x ks ih =>
    intro acc k
    rw [List.foldl_cons]
    by_cases hk : x = k
    · subst hk
      rw [ih (bumpCount x acc) x, lookupCount_bump_self]
      cases h : lookupCount x acc <;>
        simp [h, List.count_cons_self] <;> omega
    · rw [ih (bumpCount x acc) k, lookupCount_bump_other hk]
      have hcnt : (x :: ks).count k = ks.count k := List.count_cons_of_ne (Ne.symm hk) ks
      cases h : lookupCount k acc <;> simp [h, hcnt]

theorem mem_of_lookupCount {k : Char × Nat} {c : Nat} :
    ∀ {acc : List ((Char × Nat) × Nat)}, lookupCount k acc = some c → (k, c) ∈ acc := by
  intro acc
  induction acc with
  | nil => intro h; cases h
  | cons kc rest ih =>
    obtain ⟨k', c'⟩ := kc
    intro h
    unfold lookupCount at h
    split at h
    · rename_i hk
      injection h with h
      subst hk h
      exact List.mem_cons_self _ _
    · exact List.mem_cons_of_mem _ (ih h)

theorem tally_mem_of_count {ks : List (Char × Nat)} {k : Char × Nat}
    (h : 0 < ks.count k) : (k, ks.count k) ∈ tally ks := by
  apply mem_of_lookupCount
  have := lookupCount_foldl_bump ks [] k
  simpa [tally, lookupCount, h] using this

theorem parse_error_of_errors_ne {input : String} (h : (parseCore input).2 ≠ []) :
    parse input = .error (joinWith "; " (parseCore input).2) := by
  have hne : (parseCore input).2.isEmpty = false := by simp [List.isEmpty_iff, h]
  simp only [parse, hne]
  rfl

theorem parseCore_snd_split (input : String) :
    (parseCore input).2 =
      (processMatches (scanMelds (trimChars input.data)).1).2 ++
      (parseTilesCore (trimChars (scanMelds (trimChars input.data)).2)).2 ++
      validateTileCounts (parseCore input).1 := rfl

/-- C3: whenever some `(suit, number)` pair occurs more than four times across
`all_tiles` of the hand assembled by a `parse` call, that call fails, and the
failure message contains both the tile's notation `number ++ suit` and the
decimal occurrence count. -/
theorem c3_tile_count_exceeded (input : String) (s : Char) (n : Nat)
    (h : 4 < ((parseCore input).1.all_tiles.map (fun t => (t.suit, t.number))).count (s, n)) :
    ∃ msg, parse input = .error msg ∧
      (toString n ++ String.singleton s).data <:+: msg.data ∧
      (toString (((parseCore input).1.all_tiles.map
        (fun t => (t.suit, t.number))).count (s, n))).data <:+: msg.data := by
  set pairs := (parseCore input).1.all_tiles.map (fun t => (t.suit, t.number)) with hpairs
  set c := pairs.count (s, n) with hc
  have hmem : ((s, n), c) ∈ tally pairs := tally_mem_of_count (by omega)
  have hmsg : ("Invalid tile count: " ++ toString n ++ String.singleton s ++
      " appears " ++ toString c ++ " times (max 4)") ∈ validateTileCounts (parseCore input).1 := by
    unfold validateTileCounts
    rw [List.mem_filterMap]
    refine ⟨((s, n), c), ?_, ?_⟩
    · exact hpairs ▸ hmem
    · have : c > 4 := h
      simp [this]
  have hin : ("Invalid tile count: " ++ toString n ++ String.singleton s ++
      " appears " ++ toString c ++ " times (max 4)") ∈ (parseCore input).2 := by
    rw [parseCore_snd_split]
    exact List.mem_append_right _ hmsg
  have hne : (parseCore input).2 ≠ [] := List.ne_nil_of_mem hin
  refine ⟨joinWith "; " (parseCore input).2, parse_error_of_errors_ne hne, ?_, ?_⟩
  · have h1 : (toString n ++ String.singleton s).data <:+:
        ("Invalid tile count: " ++ toString n ++ String.singleton s ++
          " appears " ++ toString c ++ " times (max 4)").data := by
      refine ⟨("Invalid tile count: ").data,
        (" appears " ++ toString c ++ " times (max 4)").data, ?_⟩
      simp [String.data_append, List.append_assoc]
    exact h1.trans (joinWith_has_mem hin)
  · have h2 : (toString c).data <:+:
        ("Invalid tile count: " ++ toString n ++ String.singleton s ++
          " appears " ++ toString c ++ " times (max 4)").data := by
      refine ⟨("Invalid tile count: " ++ toString n ++ String.singleton s ++ " appears ").data,
        (" times (max 4)").data, ?_⟩
      simp [String.data_append, List.append_assoc]
    exact h2.trans (joinWith_has_mem hin)

theorem c3_tile_count_exceeded_witness :
    4 < ((parseCore "11111m").1.all_tiles.map (fun t => (t.suit, t.number))).count ('m', 1) ∧
    ∃ msg, parse "11111m" = .error msg ∧
      ("1m").data <:+: msg.data ∧ ("5").data <:+: msg.data := by
  refine ⟨by decide, ?_⟩
  have := c3_tile_count_exceeded "11111m" 'm' 1 (by decide)
  simpa using this

/-! ## Structural facts about parsed melds -/

theorem groupTiles_mem {suit : Char} {ds : List Char} {t : Tile}
    (h : t ∈ (groupTiles suit ds).1) :
    t.suit = suit ∧ t.is_rotated = false ∧ t.is_added = false ∧
      (getTileInfo t.suit t.number).isSome := by
  induction ds with
  | nil => cases h
  | cons d ds ih =>
    simp only [groupTiles] at h
    rcases hg : getTileInfo suit (digitVal d) with _ | info
    · rw [hg] at h
      exact ih h
    · rw [hg] at h
      rcases List.mem_cons.mp h with rfl | h
      · exact ⟨rfl, rfl, rfl, by simp [hg]⟩
      · exact ih h

theorem parseTilesCore_mem {cs : List Char} {t : Tile}
    (h : t ∈ (parseTilesCore cs).1) :
    t.is_rotated = false ∧ t.is_added = false ∧ (getTileInfo t.suit t.number).isSome := by
  simp only [parseTilesCore] at h
  split at h
  · cases h
  · simp only [List.mem_flatten, List.mem_map] at h
    obtain ⟨l, ⟨pr, ⟨g, _, rfl⟩, rfl⟩, hm⟩ := h
    have := groupTiles_mem hm
    exact ⟨this.2.1, this.2.2.1, this.2.2.2⟩

theorem modifyAt_length {α : Type} (i : Nat) (f : α → α) (l : List α) :
    (modifyAt i f l).length = l.length := by
  induction l generalizing i with
  | nil => cases i <;> rfl
  | cons x xs ih =>
    cases i with
    | zero => rfl
    | succ j => simpa [modifyAt] using ih j

theorem modifyAt_getElem? {α : Type} (i : Nat) (f : α → α) (l : List α) (j : Nat) :
    (modifyAt i f l)[j]? = if j = i then (l[j]?).map f else l[j]? := by
  induction l generalizing i j with
  | nil => cases i <;> simp [modifyAt]
  | cons x xs ih =>
    cases i with
    | zero =>
      cases j with
      | zero => simp [modifyAt]
      | succ j' => simp [modifyAt]
    | succ i' =>
      cases j with
      | zero => simp [modifyAt]
      | succ j' =>
        simp only [modifyAt, List.getElem?_cons_succ]
        rw [ih i' j']
        simp

theorem processMatches_mem {ms : List MeldMatch} {m : Meld}
    (h : m ∈ (processMatches ms).1) :
    ∃ mm, mm ∈ ms ∧ ∃ es, processMeldMatch mm = (some m, es) := by
  induction ms with
  | nil => cases h
  | cons mm rest ih =>
    unfold processMatches at h
    simp only at h
    rcases List.mem_append.mp h with h | h
    · rcases ho : (processMeldMatch mm).1 with _ | m'
      · rw [ho] at h; cases h
      · rw [ho] at h
        rcases List.mem_singleton.mp (by simpa using h) with rfl
        exact ⟨mm, List.mem_cons_self _ _,
          (processMeldMatch mm).2, by rw [← ho]⟩
    · obtain ⟨mm', hmm', es, hes⟩ := ih h
      exact ⟨mm', List.mem_cons_of_mem _ hmm', es, hes⟩

theorem classifyMeld_spec {a c : Bool} {n : Nat} {tiles : List Tile} {mt : MeldType}
    (h : classifyMeld a c n tiles = some mt) :
    ((mt = .kan_added ∨ mt = .kan_closed ∨ mt = .kan_open) → n = 4) ∧
    ((mt = .chi ∨ mt = .pon) → n = 3) ∧
    (mt = .chi → isSequence tiles = true) ∧
    (mt = .pon → isSequence tiles = false) ∧
    (mt = .kan_closed → c = true) := by
  unfold classifyMeld at h
  split at h
  · rename_i hc
    injection h with h
    subst h
    exact ⟨fun _ => hc.2, by simp, by simp, by simp, by simp⟩
  · split at h
    · rename_i hc
      injection h with h
      subst h
      exact ⟨fun _ => hc.2, by simp, by simp, by simp, fun _ => by simpa using hc.1⟩
    · split at h
      · rename_i hc
        injection h with h
        subst h
        exact ⟨fun _ => hc, by simp, by simp, by simp, by simp⟩
      · split at h
        · rename_i hc
          injection h with h
          rcases hs : isSequence tiles with _ | _
          · rw [hs] at h
            subst h
            exact ⟨by simp, fun _ => hc, by simp, fun _ => rfl, by simp⟩
          · rw [hs] at h
            subst h
            exact ⟨by simp, fun _ => hc, fun _ => rfl, by simp, by simp⟩
        · cases h

theorem processMeldMatch_some {mm : MeldMatch} {meld : Meld} {es : List String}
    (h : processMeldMatch mm = (some meld, es)) :
    meld.source = sourceOfChar mm.sourceChar ∧
    meld.tiles = (if meld.source ≠ .self ∧ (parseTilesCore (meldTileNotation mm)).1 ≠ []
      then applyRotation (parseTilesCore (meldTileNotation mm)).1 meld.meld_type meld.source
      else (parseTilesCore (meldTileNotation mm)).1) ∧
    classifyMeld (mm.plusMark && mm.addedDigit.isSome) (meldIsClosed mm)
      (parseTilesCore (meldTileNotation mm)).1.length
      (parseTilesCore (meldTileNotation mm)).1 = some meld.meld_type ∧
    (meld.meld_type = .kan_closed → mm.sourceChar = none) := by
  unfold processMeldMatch at h
  split at h
  · exact absurd h (by simp)
  · split at h
    · exact absurd h (by simp)
    · simp only at h
      split at h
      · exact absurd h (by simp)
      · rename_i htne
        split at h
        · exact absurd h (by simp)
        · rename_i hclsrc
          split at h
          · exact absurd h (by simp)
          · rename_i mt hcls
            simp only [Prod.mk.injEq, Option.some.injEq] at h
            obtain ⟨rfl, rfl⟩ := h
            refine ⟨rfl, rfl, hcls, ?_⟩
            intro hkc
            have := (classifyMeld_spec hcls).2.2.2.2 hkc
            by_contra hsc
            have hsome : mm.sourceChar.isSome := Option.ne_none_iff_isSome.mp hsc
            exact hclsrc (by simp [this, hsome])

theorem applyRotation_length (tiles : List Tile) (mt : MeldType) (src : MeldSource) :
    (applyRotation tiles mt src).length = tiles.length := by
  unfold applyRotation
  split <;> simp [modifyAt_length]

theorem modifyAt_getElem {α : Type} (j : Nat) (f : α → α) (l : List α) (i : Nat)
    (hi : i < l.length) (hm : i < (modifyAt j f l).length) :
    (modifyAt j f l)[i] = if i = j then f (l[i]) else l[i] := by
  have h := modifyAt_getElem? j f l i
  rw [List.getElem?_eq_getElem hm, List.getElem?_eq_getElem hi] at h
  by_cases hij : i = j
  · rw [if_pos hij] at h ⊢
    simpa using h
  · rw [if_neg hij] at h ⊢
    simpa using h

theorem applyRotation_spec {tiles : List Tile} {mt : MeldType} {src : MeldSource}
    (hbase : ∀ t ∈ tiles, t.is_rotated = false ∧ t.is_added = false)
    (hlen : mt = .kan_added → tiles.length = 4) :
    ∀ i, (hi : i < (applyRotation tiles mt src).length) →
      ((applyRotation tiles mt src)[i].is_rotated = true ↔
        (i = rotationIndex src mt ∨ (mt = .kan_added ∧ i = 3))) ∧
      ((applyRotation tiles mt src)[i].is_added = true ↔ (mt = .kan_added ∧ i = 3)) := by
  intro i hi
  have hi' : i < tiles.length := by rwa [applyRotation_length] at hi
  have hb := hbase (tiles[i]) (List.getElem_mem hi')
  have ht1len : (modifyAt (rotationIndex src mt)
      (fun t => { t with is_rotated := true }) tiles).length = tiles.length :=
    modifyAt_length _ _ tiles
  have hit1 : i < (modifyAt (rotationIndex src mt)
      (fun t => { t with is_rotated := true }) tiles).length := by omega
  have e2 : (modifyAt (rotationIndex src mt)
      (fun t => { t with is_rotated := true }) tiles)[i] =
      if i = rotationIndex src mt then
        { tiles[i] with is_rotated := true } else tiles[i] :=
    modifyAt_getElem _ _ tiles i hi' hit1
  by_cases hka : mt = .kan_added
  · have h4 : tiles.length = 4 := hlen hka
    have hAR : applyRotation tiles mt src =
        modifyAt 3 (fun t => { t with is_rotated := true, is_added := true })
          (modifyAt (rotationIndex src mt) (fun t => { t with is_rotated := true }) tiles) := by
      unfold applyRotation
      rw [if_pos hka, ht1len, h4]
    have hiAR : i < (modifyAt 3 (fun t => { t with is_rotated := true, is_added := true })
        (modifyAt (rotationIndex src mt)
          (fun t => { t with is_rotated := true }) tiles)).length := by
      rw [modifyAt_length]
      omega
    have e1 : (applyRotation tiles mt src)[i] =
        if i = 3 then
          { (modifyAt (rotationIndex src mt)
              (fun t => { t with is_rotated := true }) tiles)[i] with
            is_rotated := true, is_added := true }
        else (modifyAt (rotationIndex src mt)
            (fun t => { t with is_rotated := true }) tiles)[i] := by
      rw [List.getElem_of_eq hAR hi]
      exact modifyAt_getElem _ _ _ i hit1 hiAR
    rw [e1, e2]
    by_cases h3 : i = 3
    · rw [if_pos h3]
      constructor
      · simp [h3, hka]
      · simp [h3, hka]
    · rw [if_neg h3]
      by_cases hr : i = rotationIndex src mt
      · rw [if_pos hr]
        constructor
        · simp [hr]
        · simp [hb.2, h3]
      · rw [if_neg hr]
        constructor
        · simp [hb.1, hr, h3]
        · simp [hb.2, h3]
  · have hAR : applyRotation tiles mt src =
        modifyAt (rotationIndex src mt) (fun t => { t with is_rotated := true }) tiles := by
      unfold applyRotation
      rw [if_neg hka]
    have e1 : (applyRotation tiles mt src)[i] =
        if i = rotationIndex src mt then
          { tiles[i] with is_rotated := true } else tiles[i] := by
      rw [List.getElem_of_eq hAR hi]
      exact e2
    rw [e1]
    by_cases hr : i = rotationIndex src mt
    · rw [if_pos hr]
      constructor
      · simp [hr, hka]
      · simp [hb.2, hka]
    · rw [if_neg hr]
      constructor
      · simp [hb.1, hr, hka]
      · simp [hb.2, hka]

theorem parse_ok_eq {input : String} {h : Hand} (hp : parse input = .ok h) :
    h = (parseCore input).1 ∧ (parseCore input).2 = [] := by
  simp only [parse] at hp
  split at hp
  · injection hp with hp
    exact ⟨hp.symm, by simpa [List.isEmpty_iff] using (by assumption : (parseCore input).2.isEmpty = true)⟩
  · cases hp

theorem parse_ok_melds {input : String} {h : Hand} (hp : parse input = .ok h) {m : Meld}
    (hm : m ∈ h.melds) :
    ∃ mm, ∃ es, processMeldMatch mm = (some m, es) := by
  obtain ⟨rfl, -⟩ := parse_ok_eq hp
  have hm' : m ∈ (processMatches (scanMelds (trimChars input.data)).1).1 := hm
  obtain ⟨mm, -, es, hes⟩ := processMatches_mem hm'
  exact ⟨mm, es, hes⟩

theorem classifyMeld_length_pos {a c : Bool} {n : Nat} {tiles : List Tile} {mt : MeldType}
    (h : classifyMeld a c n tiles = some mt) : n = 3 ∨ n = 4 := by
  have hs := classifyMeld_spec h
  cases mt with
  | chi => exact Or.inl (hs.2.1 (Or.inl rfl))
  | pon => exact Or.inl (hs.2.1 (Or.inr rfl))
  | kan_open => exact Or.inr (hs.1 (by simp))
  | kan_closed => exact Or.inr (hs.1 (by simp))
  | kan_added => exact Or.inr (hs.1 (by simp))

/-! ## C1: rotation/added-flag placement -/

/-- C1: in every successfully parsed hand, a meld called from a non-self
source has exactly the tile at the source-determined index rotated (left → 0,
across → 1, right → 3 for an open kan and 2 otherwise), an added kan
additionally has its fourth tile (index 3) rotated and marked added, and no
other tile carries either flag; in particular `parse "123m (111+1z<)"` yields
a kan_added meld whose tiles 0 and 3 are rotated, whose tile 3 is added, and
whose tiles 1 and 2 carry neither flag. -/
theorem c1_rotation_assignment :
    (∀ (input : String) (h : Hand), parse input = .ok h → ∀ m ∈ h.melds,
      m.source ≠ .self → ∀ i, (hi : i < m.tiles.length) →
        (m.tiles[i].is_rotated = true ↔
          (i = rotationIndex m.source m.meld_type ∨ (m.meld_type = .kan_added ∧ i = 3))) ∧
        (m.tiles[i].is_added = true ↔ (m.meld_type = .kan_added ∧ i = 3))) ∧
    parse "123m (111+1z<)" = .ok
      { closed_tiles := [⟨'m', 1, false, false⟩, ⟨'m', 2, false, false⟩, ⟨'m', 3, false, false⟩],
        melds := [{ tiles := [⟨'z', 1, true, false⟩, ⟨'z', 1, false, false⟩,
                      ⟨'z', 1, false, false⟩, ⟨'z', 1, true, true⟩],
                    meld_type := .kan_added, source := .left }] } := by
  constructor
  · intro input h hp m hm hsrc i hi
    obtain ⟨mm, es, hpm⟩ := parse_ok_melds hp hm
    obtain ⟨hsrceq, htiles, hcls, -⟩ := processMeldMatch_some hpm
    have hbase : ∀ t ∈ (parseTilesCore (meldTileNotation mm)).1,
        t.is_rotated = false ∧ t.is_added = false :=
      fun t ht => ⟨(parseTilesCore_mem ht).1, (parseTilesCore_mem ht).2.1⟩
    have hlen34 := classifyMeld_length_pos hcls
    have hne : (parseTilesCore (meldTileNotation mm)).1 ≠ [] := by
      intro hnil
      rw [hnil] at hlen34
      simp at hlen34
    have hlen4 : m.meld_type = .kan_added →
        (parseTilesCore (meldTileNotation mm)).1.length = 4 := by
      intro hka
      exact (classifyMeld_spec hcls).1 (Or.inl hka)
    rw [if_pos ⟨hsrc, hne⟩] at htiles
    have hi2 : i < (applyRotation (parseTilesCore (meldTileNotation mm)).1
        m.meld_type m.source).length := by
      rw [← htiles]
      exact hi
    have hspec := applyRotation_spec hbase hlen4 i hi2
    have hx : m.tiles[i] = (applyRotation (parseTilesCore (meldTileNotation mm)).1
        m.meld_type m.source)[i] := List.getElem_of_eq htiles hi
    rw [hx]
    exact hspec
  · rfl

def exampleKanAddedMeld : Meld :=
  { tiles := [⟨'z', 1, true, false⟩, ⟨'z', 1, false, false⟩, ⟨'z', 1, false, false⟩,
      ⟨'z', 1, true, true⟩], meld_type := .kan_added, source := .left }

def exampleKanAddedHand : Hand :=
  { closed_tiles := [⟨'m', 1, false, false⟩, ⟨'m', 2, false, false⟩, ⟨'m', 3, false, false⟩],
    melds := [exampleKanAddedMeld] }

theorem c1_rotation_assignment_witness :
    (exampleKanAddedMeld.tiles[0].is_rotated = true ↔
      (0 = rotationIndex exampleKanAddedMeld.source exampleKanAddedMeld.meld_type ∨
        (exampleKanAddedMeld.meld_type = .kan_added ∧ 0 = 3))) ∧
    (exampleKanAddedMeld.tiles[0].is_added = true ↔
      (exampleKanAddedMeld.meld_type = .kan_added ∧ 0 = 3)) :=
  c1_rotation_assignment.1 "123m (111+1z<)" exampleKanAddedHand (by rfl)
    exampleKanAddedMeld (by decide) (by decide) 0 (by decide)

/-! ## C5: closed kan never carries a source -/

/-- C5: every `kan_closed` meld of a successfully parsed hand has source
`self` and `is_open = false`; `parse "[1111z]"` yields exactly such a meld,
and a closed kan written with a source marker (`"[1111z<]"`) fails. -/
theorem c5_closed_kan_invariant :
    (∀ (input : String) (h : Hand), parse input = .ok h → ∀ m ∈ h.melds,
      m.meld_type = .kan_closed → m.source = .self ∧ m.is_open = false) ∧
    parse "[1111z]" = .ok
      { melds := [{ tiles := [⟨'z', 1, false, false⟩, ⟨'z', 1, false, false⟩,
                      ⟨'z', 1, false, false⟩, ⟨'z', 1, false, false⟩],
                    meld_type := .kan_closed, source := .self }] } ∧
    parse "[1111z<]" = .error "Closed kan cannot have source marker: [1111z<]" := by
  refine ⟨?_, by rfl, by rfl⟩
  intro input h hp m hm hkc
  obtain ⟨mm, es, hpm⟩ := parse_ok_melds hp hm
  obtain ⟨hsrceq, -, -, hns⟩ := processMeldMatch_some hpm
  have h0 : mm.sourceChar = none := hns hkc
  constructor
  · rw [hsrceq, h0]
    rfl
  · simp [Meld.is_open, hkc]

def exampleClosedKanMeld : Meld :=
  { tiles := [⟨'z', 1, false, false⟩, ⟨'z', 1, false, false⟩, ⟨'z', 1, false, false⟩,
      ⟨'z', 1, false, false⟩], meld_type := .kan_closed, source := .self }

theorem c5_closed_kan_invariant_witness :
    exampleClosedKanMeld.source = .self ∧ exampleClosedKanMeld.is_open = false :=
  c5_closed_kan_invariant.1 "[1111z]" { melds := [exampleClosedKanMeld] } (by rfl)
    exampleClosedKanMeld (by decide) (by decide)

/-! ## C2: chi versus pon -/

/-- The claim's wording of the chi condition (to be compared with the
source's `_is_sequence`): all three tiles share one suited (non-honor) suit
and their numbers — red five `0` read as `5` — form three consecutive
integers when sorted. -/
def chiSpec (tiles : List Tile) : Prop :=
  (∃ c, (c = 'm' ∨ c = 'p' ∨ c = 's') ∧ ∀ t ∈ tiles, t.suit = c) ∧
  ∃ a, sortNats (tiles.map (fun t => if t.number = 0 then 5 else t.number)) = [a, a + 1, a + 2]

theorem dedupChars_aux (x : Char) :
    ∀ (l : List Char) (acc : List Char),
      (x ∈ l.foldl (fun acc c => if c ∈ acc then acc else acc ++ [c]) acc ↔ x ∈ acc ∨ x ∈ l) := by
  intro l
  induction l with
  | nil => intro acc; simp
  | cons c cs ih =>
    intro acc
    rw [List.foldl_cons, ih]
    by_cases hc : c ∈ acc
    · rw [if_pos hc]
      constructor
      · rintro (h | h)
        · exact Or.inl h
        · exact Or.inr (List.mem_cons_of_mem _ h)
      · rintro (h | h)
        · exact Or.inl h
        · rcases List.mem_cons.mp h with rfl | h
          · exact Or.inl hc
          · exact Or.inr h
    · rw [if_neg hc]
      simp only [List.mem_append, List.mem_singleton, List.mem_cons]
      tauto

theorem dedupChars_mem (l : List Char) (x : Char) : x ∈ dedupChars l ↔ x ∈ l := by
  unfold dedupChars
  rw [dedupChars_aux]
  simp

theorem dedupChars_all_eq {l : List Char} {c : Char} (hne : l ≠ []) (h : ∀ x ∈ l, x = c) :
    dedupChars l = [c] := by
  have aux : ∀ (l' : List Char), (∀ x ∈ l', x = c) →
      l'.foldl (fun acc d => if d ∈ acc then acc else acc ++ [d]) [c] = [c] := by
    intro l'
    induction l' with
    | nil => intro _; rfl
    | cons d ds ih =>
      intro hall
      have hd : d = c := hall d (List.mem_cons_self _ _)
      rw [List.foldl_cons, hd]
      simp only [List.mem_singleton, if_pos rfl]
      exact ih (fun x hx => hall x (List.mem_cons_of_mem _ hx))
  match l, hne with
  | d :: ds, _ =>
    have hd : d = c := h d (List.mem_cons_self _ _)
    unfold dedupChars
    rw [List.foldl_cons]
    simp only [List.not_mem_nil, if_neg (fun hh => hh), List.nil_append, hd]
    exact aux ds (fun x hx => h x (List.mem_cons_of_mem _ hx))

theorem modifyAt_map_eq {α β : Type} (i : Nat) (f : α → α) (g : α → β) (l : List α)
    (h : ∀ x, g (f x) = g x) : (modifyAt i f l).map g = l.map g := by
  induction l generalizing i with
  | nil => cases i <;> rfl
  | cons x xs ih =>
    cases i with
    | zero => simp [modifyAt, h x]
    | succ j => simp [modifyAt, ih j]

theorem applyRotation_pairs (tiles : List Tile) (mt : MeldType) (src : MeldSource) :
    (applyRotation tiles mt src).map (fun t => (t.suit, t.number)) =
      tiles.map (fun t => (t.suit, t.number)) := by
  have h1 : ∀ (i : Nat) (l : List Tile),
      (modifyAt i (fun t => { t with is_rotated := true }) l).map
        (fun t => (t.suit, t.number)) = l.map (fun t => (t.suit, t.number)) :=
    fun i l => modifyAt_map_eq i _ _ l (fun x => rfl)
  have h2 : ∀ (i : Nat) (l : List Tile),
      (modifyAt i (fun t => { t with is_rotated := true, is_added := true }) l).map
        (fun t => (t.suit, t.number)) = l.map (fun t => (t.suit, t.number)) :=
    fun i l => modifyAt_map_eq i _ _ l (fun x => rfl)
  unfold applyRotation
  split
  · simp only [h1, h2]
  · exact h1 _ _

theorem isSequence_congr {l₁ l₂ : List Tile}
    (h : l₁.map (fun t => (t.suit, t.number)) = l₂.map (fun t => (t.suit, t.number))) :
    isSequence l₁ = isSequence l₂ := by
  have hlen : l₁.length = l₂.length := by
    have := congrArg List.length h
    simpa using this
  have hsuits : l₁.map (fun t => t.suit) = l₂.map (fun t => t.suit) := by
    have := congrArg (List.map Prod.fst) h
    simpa [List.map_map, Function.comp] using this
  have hnums : l₁.map (fun t => if t.number = 0 then 5 else t.number) =
      l₂.map (fun t => if t.number = 0 then 5 else t.number) := by
    have := congrArg (List.map (fun p : Char × Nat => if p.2 = 0 then 5 else p.2)) h
    simpa [List.map_map, Function.comp] using this
  unfold isSequence
  rw [hlen, hsuits, hnums]

theorem chiSpec_congr {l₁ l₂ : List Tile}
    (h : l₁.map (fun t => (t.suit, t.number)) = l₂.map (fun t => (t.suit, t.number))) :
    chiSpec l₁ ↔ chiSpec l₂ := by
  have hsuits : l₁.map (fun t => t.suit) = l₂.map (fun t => t.suit) := by
    have := congrArg (List.map Prod.fst) h
    simpa [List.map_map, Function.comp] using this
  have hnums : l₁.map (fun t => if t.number = 0 then 5 else t.number) =
      l₂.map (fun t => if t.number = 0 then 5 else t.number) := by
    have := congrArg (List.map (fun p : Char × Nat => if p.2 = 0 then 5 else p.2)) h
    simpa [List.map_map, Function.comp] using this
  unfold chiSpec
  rw [hnums]
  constructor
  · rintro ⟨⟨c, hc, hall⟩, hs⟩
    refine ⟨⟨c, hc, ?_⟩, hs⟩
    intro t ht
    have : t.suit ∈ l₂.map (fun t => t.suit) := List.mem_map_of_mem _ ht
    rw [← hsuits] at this
    obtain ⟨t', ht', he⟩ := List.mem_map.mp this
    rw [← he]
    exact hall t' ht'
  · rintro ⟨⟨c, hc, hall⟩, hs⟩
    refine ⟨⟨c, hc, ?_⟩, hs⟩
    intro t ht
    have : t.suit ∈ l₁.map (fun t => t.suit) := List.mem_map_of_mem _ ht
    rw [hsuits] at this
    obtain ⟨t', ht', he⟩ := List.mem_map.mp this
    rw [← he]
    exact hall t' ht'

theorem isSequence_iff_chiSpec {tiles : List Tile} (hlen : tiles.length = 3)
    (hsuit : ∀ t ∈ tiles, isSuitChar t.suit = true) :
    isSequence tiles = true ↔ chiSpec tiles := by
  unfold isSequence
  rw [if_neg (by omega)]
  have hne : tiles ≠ [] := by
    intro hh
    rw [hh] at hlen
    cases hlen
  constructor
  · intro hs
    by_cases hcond : (dedupChars (tiles.map fun t => t.suit)).length ≠ 1 ∨
        'z' ∈ dedupChars (tiles.map fun t => t.suit)
    · rw [if_pos hcond] at hs
      cases hs
    · rw [if_neg hcond] at hs
      push_neg at hcond
      obtain ⟨h1, hz⟩ := hcond
      have hlen1 : dedupChars (tiles.map (fun t => t.suit)) = [(dedupChars
          (tiles.map (fun t => t.suit))).headI] := by
        rcases hd : dedupChars (tiles.map (fun t => t.suit)) with _ | ⟨c0, rest⟩
        · rw [hd] at h1; cases h1
        · rw [hd] at h1
          cases rest with
          | nil => rw [hd, List.headI]
          | cons a b => simp at h1
      set c0 := (dedupChars (tiles.map (fun t => t.suit))).headI with hc0
      have hall : ∀ t ∈ tiles, t.suit = c0 := by
        intro t ht
        have hmem : t.suit ∈ dedupChars (tiles.map (fun t => t.suit)) :=
          (dedupChars_mem _ _).mpr (List.mem_map_of_mem _ ht)
        rw [hlen1] at hmem
        simpa using hmem
      have hc0valid : c0 = 'm' ∨ c0 = 'p' ∨ c0 = 's' := by
        match tiles, hne with
        | t0 :: _, _ =>
          have hv := hsuit t0 (List.mem_cons_self _ _)
          have he := hall t0 (List.mem_cons_self _ _)
          rw [he] at hv
          have hznot : c0 ≠ 'z' := by
            intro hzz
            apply hz
            rw [hlen1]
            simp [hzz]
          unfold isSuitChar at hv
          have hv4 : ((c0 = 'm' ∨ c0 = 'p') ∨ c0 = 's') ∨ c0 = 'z' := by simpa using hv
          rcases hv4 with ((h | h) | h) | h
          · exact Or.inl h
          · exact Or.inr (Or.inl h)
          · exact Or.inr (Or.inr h)
          · exact absurd h hznot
      refine ⟨⟨c0, hc0valid, hall⟩, ?_⟩
      rcases hsort : sortNats (tiles.map (fun t => if t.number = 0 then 5 else t.number))
        with _ | ⟨a, _ | ⟨b, _ | ⟨c, _ | _⟩⟩⟩ <;> rw [hsort] at hs
      · cases hs
      · cases hs
      · cases hs
      · refine ⟨a, ?_⟩
        have hand := (Bool.and_eq_true _ _).mp hs
        have ha : a + 1 = b := by simpa using hand.1
        have hb : b + 1 = c := by simpa using hand.2
        rw [hsort, ← hb, ← ha]
      · cases hs
  · rintro ⟨⟨c, hc, hall⟩, a, hsort⟩
    have hd : dedupChars (tiles.map (fun t => t.suit)) = [c] := by
      apply dedupChars_all_eq
      · simpa using hne
      · intro x hx
        obtain ⟨t, ht, rfl⟩ := List.mem_map.mp hx
        exact hall t ht
    rw [if_neg, hsort]
    · simp
    · rw [hd]
      rintro (h | h)
      · simp at h
      · rcases hc with rfl | rfl | rfl <;> simp at h

theorem scanGroupsGo_suit : ∀ (cs run : List Char), ∀ g ∈ (scanGroupsGo cs run).1,
    isSuitChar g.2 = true := by
  intro cs
  induction cs with
  | nil =>
    intro run g hg
    cases run <;> simp [scanGroupsGo] at hg
  | cons c cs ih =>
    intro run g hg
    unfold scanGroupsGo at hg
    by_cases hd : c.isDigit
    · rw [if_pos hd] at hg
      exact ih (c :: run) g hg
    · rw [if_neg hd] at hg
      by_cases hsu : isSuitChar c
      · rw [if_pos hsu] at hg
        cases run with
        | nil => exact ih [] g (by simpa using hg)
        | cons r rs =>
          simp only at hg
          rcases List.mem_cons.mp hg with rfl | hg
          · exact hsu
          · exact ih [] g hg
      · rw [if_neg hsu] at hg
        exact ih [] g (by simpa using hg)

theorem parseTilesCore_suit {cs : List Char} {t : Tile} (h : t ∈ (parseTilesCore cs).1) :
    isSuitChar t.suit = true := by
  simp only [parseTilesCore] at h
  split at h
  · cases h
  · simp only [List.mem_flatten, List.mem_map] at h
    obtain ⟨l, ⟨pr, ⟨g, hgmem, rfl⟩, rfl⟩, hm⟩ := h
    rw [(groupTiles_mem hm).1]
    exact scanGroupsGo_suit _ [] g hgmem

/-- C2: every 3-tile meld of a successfully parsed hand is classified chi or
pon, and it is chi exactly when all three tiles share one suited (non-honor)
suit and their numbers — red five `0` read as `5` — are three consecutive
integers once sorted (`chiSpec`); any other 3-tile meld, honors included, is
pon. -/
theorem c2_chi_pon_classification :
    ∀ (input : String) (h : Hand), parse input = .ok h → ∀ m ∈ h.melds,
      m.tiles.length = 3 →
        (m.meld_type = .chi ∨ m.meld_type = .pon) ∧ (m.meld_type = .chi ↔ chiSpec m.tiles) := by
  intro input h hp m hm hlen3
  obtain ⟨mm, es, hpm⟩ := parse_ok_melds hp hm
  obtain ⟨hsrceq, htiles, hcls, -⟩ := processMeldMatch_some hpm
  have hspec := classifyMeld_spec hcls
  have hpairs : m.tiles.map (fun t => (t.suit, t.number)) =
      (parseTilesCore (meldTileNotation mm)).1.map (fun t => (t.suit, t.number)) := by
    rw [htiles]
    split
    · exact applyRotation_pairs _ _ _
    · rfl
  have hlen' : m.tiles.length = (parseTilesCore (meldTileNotation mm)).1.length := by
    have := congrArg List.length hpairs
    simpa using this
  have hlen3' : (parseTilesCore (meldTileNotation mm)).1.length = 3 := by omega
  have hdisj : m.meld_type = .chi ∨ m.meld_type = .pon := by
    cases hmt : m.meld_type with
    | chi => exact Or.inl rfl
    | pon => exact Or.inr rfl
    | kan_open =>
      have := hspec.1 (by simp [hmt])
      omega
    | kan_closed =>
      have := hspec.1 (by simp [hmt])
      omega
    | kan_added =>
      have := hspec.1 (by simp [hmt])
      omega
  have hsuits : ∀ t ∈ m.tiles, isSuitChar t.suit = true := by
    intro t ht
    have h1 : t.suit ∈ m.tiles.map (fun t => t.suit) := List.mem_map_of_mem _ ht
    have h2 : m.tiles.map (fun t => t.suit) =
        (parseTilesCore (meldTileNotation mm)).1.map (fun t => t.suit) := by
      have := congrArg (List.map Prod.fst) hpairs
      simpa [List.map_map, Function.comp] using this
    rw [h2] at h1
    obtain ⟨t', ht', he⟩ := List.mem_map.mp h1
    rw [← he]
    exact parseTilesCore_suit ht'
  have hinv : isSequence m.tiles = isSequence (parseTilesCore (meldTileNotation mm)).1 :=
    isSequence_congr hpairs
  have hbridge : isSequence m.tiles = true ↔ chiSpec m.tiles :=
    isSequence_iff_chiSpec hlen3 hsuits
  refine ⟨hdisj, ?_, ?_⟩
  · intro hc
    have hseq : isSequence (parseTilesCore (meldTileNotation mm)).1 = true := hspec.2.2.1 hc
    exact hbridge.mp (hinv.trans hseq)
  · intro hcs
    have hseq : isSequence m.tiles = true := hbridge.mpr hcs
    rcases hdisj with hc | hp2
    · exact hc
    · have := hspec.2.2.2.1 hp2
      rw [hinv] at hseq
      rw [this] at hseq
      cases hseq

def exampleChiHand : Hand :=
  { closed_tiles := [⟨'m', 1, false, false⟩, ⟨'m', 2, false, false⟩, ⟨'m', 3, false, false⟩],
    melds := [{ tiles := [⟨'p', 4, true, false⟩, ⟨'p', 5, false, false⟩, ⟨'p', 6, false, false⟩],
                meld_type := .chi, source := .left }] }

theorem c2_chi_pon_classification_witness :
    ∃ m ∈ exampleChiHand.melds,
      (m.meld_type = .chi ∨ m.meld_type = .pon) ∧ (m.meld_type = .chi ↔ chiSpec m.tiles) := by
  refine ⟨_, List.mem_cons_self _ _, ?_⟩
  exact c2_chi_pon_classification "123m (456p<)" exampleChiHand (by rfl) _
    (List.mem_cons_self _ _) (by decide)

/-! ## C6: meld-size errors

The claim orders the size check before the closed-kan-with-source check; in
the source the closed-kan-with-source check (and the empty-tile-list
`continue`) run first, so e.g. `"[11z<]"` — agreeing brackets, two tiles —
reports only "Closed kan cannot have source marker", never "invalid meld
size". -/

def c6Match : MeldMatch := ⟨'[', ['1', '1'], false, none, 'z', some '<', ']'⟩

/-- C6 counterexample: the meld `"[11z<]"` has agreeing brackets, a
well-formed (absent) added marker and a parsed tile count of 2 — neither 3
nor 4 — yet the parser reports only the closed-kan-source error and no
"Invalid meld size" error at all. -/
theorem c6_counterexample :
    scanMelds ("[11z<]".data) = ([c6Match], []) ∧
    bracketMismatch c6Match = false ∧
    (c6Match.plusMark && c6Match.addedDigit.isNone) = false ∧
    (parseTilesCore (meldTileNotation c6Match)).1.length = 2 ∧
    processMeldMatch c6Match = (none, ["Closed kan cannot have source marker: [11z<]"]) ∧
    (∀ e ∈ (parseMeldsCore ("[11z<]".data)).2, ¬(("Invalid meld size").data <:+: e.data)) := by
  decide

/-- C6 (amended): for every matched meld with agreeing brackets, a
well-formed added marker, at least one successfully parsed tile, and which is
not a closed meld carrying a source marker, a parsed tile count that is
neither 3 nor 4 produces exactly the "Invalid meld size" error for that meld
and discards the meld; the closed-kan-with-source check of step 5 runs before
the tile-count classification of step 3, and a meld whose tile list parses to
empty is discarded without a size error. -/
theorem c6_invalid_meld_size (mm : MeldMatch)
    (hb : bracketMismatch mm = false)
    (hplus : (mm.plusMark && mm.addedDigit.isNone) = false)
    (hne : (parseTilesCore (meldTileNotation mm)).1 ≠ [])
    (hcs : (meldIsClosed mm && mm.sourceChar.isSome) = false)
    (hsz3 : (parseTilesCore (meldTileNotation mm)).1.length ≠ 3)
    (hsz4 : (parseTilesCore (meldTileNotation mm)).1.length ≠ 4) :
    processMeldMatch mm = (none, (parseTilesCore (meldTileNotation mm)).2 ++
      ["Invalid meld size: " ++ toString (parseTilesCore (meldTileNotation mm)).1.length ++
        " tiles"]) := by
  have hclsnone : classifyMeld (mm.plusMark && mm.addedDigit.isSome) (meldIsClosed mm)
      (parseTilesCore (meldTileNotation mm)).1.length
      (parseTilesCore (meldTileNotation mm)).1 = none := by
    unfold classifyMeld
    rw [if_neg (fun hc => hsz4 hc.2), if_neg (fun hc => hsz4 hc.2), if_neg hsz4, if_neg hsz3]
  unfold processMeldMatch
  rw [if_neg (by simp [hb]), if_neg (by simp [hplus])]
  simp only
  rw [if_neg (by simp [List.isEmpty_iff, hne]), if_neg (by simp [hcs]), hclsnone]

theorem c6_invalid_meld_size_witness :
    (bracketMismatch ⟨'(', ['1', '1', '1', '1', '2'], false, none, 'm', none, ')'⟩ = false) ∧
    processMeldMatch ⟨'(', ['1', '1', '1', '1', '2'], false, none, 'm', none, ')'⟩ =
      (none, ["Invalid meld size: 5 tiles"]) := by
  refine ⟨by decide, ?_⟩
  have h := c6_invalid_meld_size ⟨'(', ['1', '1', '1', '1', '2'], false, none, 'm', none, ')'⟩
    (by decide) (by decide) (by decide) (by decide) (by decide) (by decide)
  rw [h]
  decide

/-! ## C9: dora / uradora / draw sub-notations

The claim says the sub-notations go through the simple `parse_tiles`; in the
source (`utils.apply_hand_options`) they go through the full `parse`, with
meld semantics and tile-count validation, the indicator lists being the
sub-hand's `all_tiles` and the draw tile the sub-hand's first closed tile. -/

/-- C9 counterexample: for the dora value `"11111m"`, `parse_tiles` succeeds
with five tiles, but applying the option reports a tile-count error and
leaves the indicator list empty — the indicator list does not equal
`parse_tiles` of the value. -/
theorem c9_counterexample :
    parse_tiles "11111m" = .ok [⟨'m', 1, false, false⟩, ⟨'m', 1, false, false⟩,
      ⟨'m', 1, false, false⟩, ⟨'m', 1, false, false⟩, ⟨'m', 1, false, false⟩] ∧
    apply_hand_options {} { dora := some "11111m" } =
      ({}, ["Invalid dora notation: Invalid tile count: 1m appears 5 times (max 4)"]) := by
  constructor
  · rfl
  · rfl

theorem applyUradoraOpt_fields (s : Hand × List String) (v? : Option String) :
    (applyUradoraOpt s v?).1.dora_indicators = s.1.dora_indicators ∧
    (applyUradoraOpt s v?).1.draw_tile = s.1.draw_tile ∧
    ∀ e ∈ s.2, e ∈ (applyUradoraOpt s v?).2 := by
  rcases v? with _ | v
  · exact ⟨rfl, rfl, fun e he => he⟩
  · have he : applyUradoraOpt s (some v) =
        (match parse v with
          | .ok dh => ({ s.1 with uradora_indicators := dh.all_tiles }, s.2)
          | .error e => (s.1, s.2 ++ ["Invalid uradora notation: " ++ e])) := rfl
    rw [he]
    rcases hp : parse v with e2 | dh
    · exact ⟨rfl, rfl, fun e he => List.mem_append_left _ he⟩
    · exact ⟨rfl, rfl, fun e he => he⟩

theorem applyDrawOpt_fields (s : Hand × List String) (v? : Option String) :
    (applyDrawOpt s v?).1.dora_indicators = s.1.dora_indicators ∧
    (applyDrawOpt s v?).1.uradora_indicators = s.1.uradora_indicators ∧
    ∀ e ∈ s.2, e ∈ (applyDrawOpt s v?).2 := by
  rcases v? with _ | v
  · exact ⟨rfl, rfl, fun e he => he⟩
  · have he : applyDrawOpt s (some v) =
        (match parse v with
          | .ok dh =>
            (match dh.closed_tiles with
              | t :: _ => ({ s.1 with draw_tile := some t }, s.2)
              | [] => s)
          | .error e => (s.1, s.2 ++ ["Invalid draw notation: " ++ e])) := rfl
    rcases hp : parse v with e2 | dh
    · have he2 : applyDrawOpt s (some v) =
          (s.1, s.2 ++ ["Invalid draw notation: " ++ e2]) := by
        rw [he, hp]
      rw [he2]
      exact ⟨rfl, rfl, fun e he3 => List.mem_append_left _ he3⟩
    · rcases hc : dh.closed_tiles with _ | ⟨t, rest⟩
      · have he2 : applyDrawOpt s (some v) = s := by
          rw [he, hp]
          show (match dh.closed_tiles with
            | t :: _ => ({ s.1 with draw_tile := some t }, s.2)
            | [] => s) = s
          rw [hc]
        rw [he2]
        exact ⟨rfl, rfl, fun e he3 => he3⟩
      · have he2 : applyDrawOpt s (some v) = ({ s.1 with draw_tile := some t }, s.2) := by
          rw [he, hp]
          show (match dh.closed_tiles with
            | t :: _ => ({ s.1 with draw_tile := some t }, s.2)
            | [] => s) = ({ s.1 with draw_tile := some t }, s.2)
          rw [hc]
        rw [he2]
        exact ⟨rfl, rfl, fun e he3 => he3⟩

/-- C9 (amended): the dora, uradora and draw sub-notations are processed with
the full `parse` (meld semantics and tile-count validation included): when
`parse` of the option value succeeds the dora/uradora indicator list equals
`all_tiles` of the parsed sub-hand, otherwise an "Invalid … notation" error
carrying the parse failure is reported and the list is left unchanged; the
draw tile becomes the first closed tile of the parsed draw sub-hand, and is
left unchanged when that sub-hand has no closed tiles. -/
theorem applyDoraOpt_fields (hand : Hand) (v? : Option String) :
    (applyDoraOpt hand v?).1.uradora_indicators = hand.uradora_indicators ∧
    (applyDoraOpt hand v?).1.draw_tile = hand.draw_tile := by
  rcases v? with _ | v
  · exact ⟨rfl, rfl⟩
  · have he : applyDoraOpt hand (some v) =
        (match parse v with
          | .ok dh => ({ hand with dora_indicators := dh.all_tiles }, [])
          | .error e => (hand, ["Invalid dora notation: " ++ e])) := rfl
    rw [he]
    rcases hp : parse v with e | dh <;> exact ⟨rfl, rfl⟩

theorem c9_sub_notations_full_parse (hand : Hand) (opts : HandOptions) (v : String) :
    (opts.dora = some v →
      (∀ dh, parse v = .ok dh →
        (apply_hand_options hand opts).1.dora_indicators = dh.all_tiles) ∧
      (∀ e, parse v = .error e →
        (apply_hand_options hand opts).1.dora_indicators = hand.dora_indicators ∧
        ("Invalid dora notation: " ++ e) ∈ (apply_hand_options hand opts).2)) ∧
    (opts.uradora = some v →
      (∀ dh, parse v = .ok dh →
        (apply_hand_options hand opts).1.uradora_indicators = dh.all_tiles) ∧
      (∀ e, parse v = .error e →
        (apply_hand_options hand opts).1.uradora_indicators = hand.uradora_indicators ∧
        ("Invalid uradora notation: " ++ e) ∈ (apply_hand_options hand opts).2)) ∧
    (opts.draw = some v →
      ∀ dh, parse v = .ok dh →
        (apply_hand_options hand opts).1.draw_tile =
          (match dh.closed_tiles with
            | t :: _ => some t
            | [] => hand.draw_tile)) := by
  have hu := applyUradoraOpt_fields (applyDoraOpt hand opts.dora) opts.uradora
  have hdw := applyDrawOpt_fields
    (applyUradoraOpt (applyDoraOpt hand opts.dora) opts.uradora) opts.draw
  have hds := applyDoraOpt_fields hand opts.dora
  refine ⟨?_, ?_, ?_⟩
  · intro hv
    constructor
    · intro dh hdh
      have h1 : (applyDoraOpt hand opts.dora).1.dora_indicators = dh.all_tiles := by
        rw [hv]
        have he : applyDoraOpt hand (some v) =
            (match parse v with
              | .ok dh => ({ hand with dora_indicators := dh.all_tiles }, [])
              | .error e => (hand, ["Invalid dora notation: " ++ e])) := rfl
        rw [he, hdh]
      show (applyDrawOpt (applyUradoraOpt (applyDoraOpt hand opts.dora) opts.uradora)
        opts.draw).1.dora_indicators = dh.all_tiles
      rw [hdw.1, hu.1, h1]
    · intro e he
      have h1 : applyDoraOpt hand opts.dora =
          (hand, ["Invalid dora notation: " ++ e]) := by
        rw [hv]
        have heq : applyDoraOpt hand (some v) =
            (match parse v with
              | .ok dh => ({ hand with dora_indicators := dh.all_tiles }, [])
              | .error e2 => (hand, ["Invalid dora notation: " ++ e2])) := rfl
        rw [heq, he]
      constructor
      · show (applyDrawOpt (applyUradoraOpt (applyDoraOpt hand opts.dora) opts.uradora)
          opts.draw).1.dora_indicators = hand.dora_indicators
        rw [hdw.1, hu.1, h1]
      · show ("Invalid dora notation: " ++ e) ∈
          (applyDrawOpt (applyUradoraOpt (applyDoraOpt hand opts.dora) opts.uradora)
            opts.draw).2
        refine hdw.2.2 _ (hu.2.2 _ ?_)
        rw [h1]
        exact List.mem_singleton.mpr rfl
  · intro hv
    constructor
    · intro dh hdh
      have h1 : (applyUradoraOpt (applyDoraOpt hand opts.dora)
          opts.uradora).1.uradora_indicators = dh.all_tiles := by
        rw [hv]
        have heq : applyUradoraOpt (applyDoraOpt hand opts.dora) (some v) =
            (match parse v with
              | .ok dh => ({ (applyDoraOpt hand opts.dora).1 with
                  uradora_indicators := dh.all_tiles }, (applyDoraOpt hand opts.dora).2)
              | .error e => ((applyDoraOpt hand opts.dora).1,
                  (applyDoraOpt hand opts.dora).2 ++ ["Invalid uradora notation: " ++ e])) := rfl
        rw [heq, hdh]
      show (applyDrawOpt (applyUradoraOpt (applyDoraOpt hand opts.dora) opts.uradora)
        opts.draw).1.uradora_indicators = dh.all_tiles
      rw [hdw.2.1, h1]
    · intro e he
      have h1 : applyUradoraOpt (applyDoraOpt hand opts.dora) opts.uradora =
          ((applyDoraOpt hand opts.dora).1,
            (applyDoraOpt hand opts.dora).2 ++ ["Invalid uradora notation: " ++ e]) := by
        rw [hv]
        have heq : applyUradoraOpt (applyDoraOpt hand opts.dora) (some v) =
            (match parse v with
              | .ok dh => ({ (applyDoraOpt hand opts.dora).1 with
                  uradora_indicators := dh.all_tiles }, (applyDoraOpt hand opts.dora).2)
              | .error e2 => ((applyDoraOpt hand opts.dora).1,
                  (applyDoraOpt hand opts.dora).2 ++
                    ["Invalid uradora notation: " ++ e2])) := rfl
        rw [heq, he]
      constructor
      · show (applyDrawOpt (applyUradoraOpt (applyDoraOpt hand opts.dora) opts.uradora)
          opts.draw).1.uradora_indicators = hand.uradora_indicators
        rw [hdw.2.1, h1]
        exact hds.1
      · show ("Invalid uradora notation: " ++ e) ∈
          (applyDrawOpt (applyUradoraOpt (applyDoraOpt hand opts.dora) opts.uradora)
            opts.draw).2
        refine hdw.2.2 _ ?_
        rw [h1]
        simp
  · intro hv dh hdh
    have h2 : (applyUradoraOpt (applyDoraOpt hand opts.dora) opts.uradora).1.draw_tile =
        hand.draw_tile := by
      rw [hu.2.1]
      exact hds.2
    show (applyDrawOpt (applyUradoraOpt (applyDoraOpt hand opts.dora) opts.uradora)
      opts.draw).1.draw_tile =
        (match dh.closed_tiles with
          | t :: _ => some t
          | [] => hand.draw_tile)
    rw [hv]
    have heq : applyDrawOpt (applyUradoraOpt (applyDoraOpt hand opts.dora) opts.uradora)
        (some v) =
        (match parse v with
          | .ok dh =>
            (match dh.closed_tiles with
              | t :: _ => ({ (applyUradoraOpt (applyDoraOpt hand opts.dora)
                  opts.uradora).1 with draw_tile := some t },
                  (applyUradoraOpt (applyDoraOpt hand opts.dora) opts.uradora).2)
              | [] => applyUradoraOpt (applyDoraOpt hand opts.dora) opts.uradora)
          | .error e => ((applyUradoraOpt (applyDoraOpt hand opts.dora) opts.uradora).1,
              (applyUradoraOpt (applyDoraOpt hand opts.dora) opts.uradora).2 ++
                ["Invalid draw notation: " ++ e])) := rfl
    rw [heq, hdh]
    show ((match dh.closed_tiles with
        | t :: _ => ({ (applyUradoraOpt (applyDoraOpt hand opts.dora) opts.uradora).1 with
            draw_tile := some t },
            (applyUradoraOpt (applyDoraOpt hand opts.dora) opts.uradora).2)
        | [] => applyUradoraOpt (applyDoraOpt hand opts.dora) opts.uradora) :
          Hand × List String).1.draw_tile =
      (match dh.closed_tiles with
        | t :: _ => some t
        | [] => hand.draw_tile)
    rcases hct : dh.closed_tiles with _ | ⟨t, rest⟩
    · exact h2
    · rfl



/-! ## C7: closed-kan back-glyph placement -/

theorem c9_sub_notations_full_parse_witness :
    ({ dora := some "5m" } : HandOptions).dora = some "5m" ∧
    parse "5m" = .ok { closed_tiles := [⟨'m', 5, false, false⟩] } ∧
    (apply_hand_options {} { dora := some "5m" }).1.dora_indicators =
      Hand.all_tiles { closed_tiles := [⟨'m', 5, false, false⟩] } :=
  ⟨rfl, by rfl,
    ((c9_sub_notations_full_parse {} { dora := some "5m" } "5m").1 rfl).1
      { closed_tiles := [⟨'m', 5, false, false⟩] } (by rfl)⟩

theorem infix_ne_of_data {s q : String} {P : List Char}
    (h1 : P <:+: s.data) (h2 : ¬ P <:+: q.data) : s ≠ q := fun he => h2 (he ▸ h1)

theorem infix_data_append_right {P : List Char} (x y : String) (h : P <:+: x.data) :
    P <:+: (x ++ y).data := by
  rw [String.data_append]
  exact h.trans (List.prefix_append _ _).isInfix

theorem infix_data_append_left {P : List Char} (x y : String) (h : P <:+: y.data) :
    P <:+: (x ++ y).data := by
  rw [String.data_append]
  exact h.trans (List.suffix_append _ _).isInfix

/-- A rendered tile always carries a `data-tile` attribute; the back glyph
never does, so they are distinct strings. -/
theorem renderTile_ne_back (cfg : Renderer) (t : Tile) (c : Nat) :
    (renderTile cfg t c).1 ≠ backTileHTML := by
  apply infix_ne_of_data (P := ("\" data-tile=\"" : String).data)
  · unfold renderTile
    rcases hti : getTileInfo t.suit t.number with _ | info
    · show ("\" data-tile=\"" : String).data <:+:
        (("<span class=\"mahjong-tile mahjong-tile-unknown\" data-tile=\"" ++ t.nota) ++
          "\">?</span>").data
      apply infix_data_append_right
      apply infix_data_append_right
      decide
    · show ("\" data-tile=\"" : String).data <:+:
        (((((((("<span class=\"" ++ joinWith " " (["mahjong-tile"]
            ++ (if t.is_rotated then ["mahjong-tile-rotated"] else [])
            ++ (if t.is_added then ["mahjong-tile-added"] else [])
            ++ (if cfg.theme = "light" ∨ cfg.theme = "dark"
                then ["mahjong-theme-" ++ cfg.theme] else []))) ++
          "\" data-tile=\"") ++ t.nota) ++ "\"") ++
          (" title=\"" ++ info.display_name ++ "\"")) ++ ">") ++
          (if cfg.theme = "auto" then getThemedSvgContent cfg info c
            else getSvgContent cfg info none c).1) ++ "</span>").data
      apply infix_data_append_right
      apply infix_data_append_right
      apply infix_data_append_right
      apply infix_data_append_right
      apply infix_data_append_right
      apply infix_data_append_right
      apply infix_data_append_left
      exact List.infix_refl _
  · decide

/-- The non-closed-kan path of `_render_standard_meld` is a plain
left-to-right tile rendering. -/
theorem renderStandardMeldGo_not_closed {cfg : Renderer} {mt : MeldType}
    (hmt : mt ≠ .kan_closed) :
    ∀ (ts : List Tile) (i c : Nat),
      renderStandardMeldGo cfg mt ts i c = renderTilesThread cfg ts c := by
  intro ts
  induction ts with
  | nil => intro i c; rfl
  | cons t ts ih =>
    intro i c
    unfold renderStandardMeldGo renderTilesThread
    have hpart : standardMeldPart cfg mt t i c = renderTile cfg t c := by
      unfold standardMeldPart
      rw [if_neg hmt]
    rw [hpart, ih]

theorem renderTilesThread_no_back (cfg : Renderer) :
    ∀ (ts : List Tile) (c : Nat), ∀ p ∈ (renderTilesThread cfg ts c).1, p ≠ backTileHTML := by
  intro ts
  induction ts with
  | nil => intro c p hp; cases hp
  | cons t ts ih =>
    intro c p hp
    unfold renderTilesThread at hp
    rcases List.mem_cons.mp hp with rfl | hp
    · exact renderTile_ne_back cfg t c
    · exact ih _ p hp

/-- C7: under `closed_kan_style = "outer"` a closed kan renders back glyphs
at exactly positions 0 and 3, under `"inner"` at exactly positions 1 and 2 —
two back glyphs in either case, the remaining two positions being face-up
tiles — while every non-closed-kan meld handled by `_render_standard_meld`
renders its tiles left to right with no back glyph. -/
theorem c7_closed_kan_back_positions (cfg : Renderer) (m : Meld) (ctr : Nat) :
    (m.meld_type = .kan_closed → m.tiles.length = 4 →
      (cfg.closed_kan_style = "outer" →
        (renderStandardMeld cfg m ctr).1.length = 4 ∧
        (renderStandardMeld cfg m ctr).1.count backTileHTML = 2 ∧
        ∀ i, (hi : i < (renderStandardMeld cfg m ctr).1.length) →
          ((renderStandardMeld cfg m ctr).1[i] = backTileHTML ↔ (i = 0 ∨ i = 3))) ∧
      (cfg.closed_kan_style = "inner" →
        (renderStandardMeld cfg m ctr).1.length = 4 ∧
        (renderStandardMeld cfg m ctr).1.count backTileHTML = 2 ∧
        ∀ i, (hi : i < (renderStandardMeld cfg m ctr).1.length) →
          ((renderStandardMeld cfg m ctr).1[i] = backTileHTML ↔ (i = 1 ∨ i = 2)))) ∧
    (m.meld_type ≠ .kan_closed →
      renderStandardMeld cfg m ctr = renderTilesThread cfg m.tiles ctr ∧
      ∀ p ∈ (renderStandardMeld cfg m ctr).1, p ≠ backTileHTML) := by
  constructor
  · intro hmt hlen
    match m, hmt, hlen with
    | ⟨[t0, t1, t2, t3], mt, src⟩, hmt, _ =>
      simp only at hmt
      constructor
      · intro hsty
        have hparts : (renderStandardMeld cfg ⟨[t0, t1, t2, t3], mt, src⟩ ctr).1 =
            [backTileHTML, (renderTile cfg t1 ctr).1,
              (renderTile cfg t2 (renderTile cfg t1 ctr).2).1, backTileHTML] := by
          simp [renderStandardMeld, renderStandardMeldGo, standardMeldPart, hmt, hsty]
        refine ⟨by rw [hparts]; rfl, ?_, ?_⟩
        · have h1 := renderTile_ne_back cfg t1 ctr
          have h2 := renderTile_ne_back cfg t2 (renderTile cfg t1 ctr).2
          rw [hparts]
          simp [List.count_cons, h1, h2]
        · intro i hi
          rw [List.getElem_of_eq hparts hi]
          have hi4 : i < 4 := by
            have hx := hi
            rw [hparts] at hx
            simpa using hx
          interval_cases i
          · simp
          · simp [renderTile_ne_back cfg t1 ctr]
          · simp [renderTile_ne_back cfg t2 (renderTile cfg t1 ctr).2]
          · simp
      · intro hsty
        have hparts : (renderStandardMeld cfg ⟨[t0, t1, t2, t3], mt, src⟩ ctr).1 =
            [(renderTile cfg t0 ctr).1, backTileHTML, backTileHTML,
              (renderTile cfg t3 (renderTile cfg t0 ctr).2).1] := by
          simp [renderStandardMeld, renderStandardMeldGo, standardMeldPart, hmt, hsty]
        refine ⟨by rw [hparts]; rfl, ?_, ?_⟩
        · have h1 := renderTile_ne_back cfg t0 ctr
          have h2 := renderTile_ne_back cfg t3 (renderTile cfg t0 ctr).2
          rw [hparts]
          simp [List.count_cons, h1, h2]
        · intro i hi
          rw [List.getElem_of_eq hparts hi]
          have hi4 : i < 4 := by
            have hx := hi
            rw [hparts] at hx
            simpa using hx
          interval_cases i
          · simp [renderTile_ne_back cfg t0 ctr]
          · simp
          · simp
          · simp [renderTile_ne_back cfg t3 (renderTile cfg t0 ctr).2]
  · intro hmt
    have he : renderStandardMeld cfg m ctr = renderTilesThread cfg m.tiles ctr :=
      renderStandardMeldGo_not_closed hmt m.tiles 0 ctr
    refine ⟨he, ?_⟩
    rw [he]
    exact renderTilesThread_no_back cfg m.tiles ctr

def placeholderRenderer : Renderer := { loadSvg := fun _ _ => none }

theorem c7_closed_kan_back_positions_witness :
    (renderStandardMeld placeholderRenderer exampleClosedKanMeld 1).1.length = 4 ∧
    (renderStandardMeld placeholderRenderer exampleClosedKanMeld 1).1.count backTileHTML = 2 := by
  have h := (c7_closed_kan_back_positions placeholderRenderer exampleClosedKanMeld 1).1
    (by decide) (by decide)
  have h2 := h.1 (by rfl)
  exact ⟨h2.1, h2.2.1⟩

theorem c10_empty_or_filler_parse_ok_witness :
    (∀ c ∈ (" _ | " : String).data, c = ' ' ∨ c = '_' ∨ c = '|') ∧
      parse " _ | " = .ok {} :=
  ⟨by decide, c10_empty_or_filler_parse_ok.2 " _ | " (by decide)⟩

/-! ## C8: asset-id disambiguation

The SVG assets handled by `_make_ids_unique` are modelled as structured
documents: literal text interleaved with `id="..."` declarations,
`href="#..."` references and `url(#...)` references.  `renderDoc` flattens
such a document to the character stream the Python code actually rewrites. -/

/-- Characters allowed in an id name of an asset (SVG ids in the shipped
assets are alphanumeric words with `-`/`_`). -/
def plainChar (c : Char) : Bool := c.isAlphanum || c = '-' || c = '_'

/-- A well-formed id name: nonempty, made of plain characters. -/
def nameOk (x : List Char) : Prop := x ≠ [] ∧ ∀ c ∈ x, plainChar c = true

/-- A literal text segment that does not itself simulate any part of the
three rewrite patterns: it contains none of the pattern heads, and no
nonempty suffix of it is a prefix of a pattern head (so no pattern
occurrence can start inside the segment and continue past it). -/
def textOk (t : List Char) : Prop :=
  ¬ idHead <:+: t ∧ ¬ hrefHead <:+: t ∧ ¬ urlHead <:+: t ∧
    ∀ s ∈ t.tails, s ≠ [] → ¬ s <+: idHead ∧ ¬ s <+: hrefHead ∧ ¬ s <+: urlHead

/-- One piece of a structured SVG document. -/
inductive SvgItem where
  | text (s : List Char)
  | idDecl (x : List Char)
  | ref (x : List Char)
  | url (x : List Char)
deriving DecidableEq

/-- The character stream of one item. -/
def renderItem : SvgItem → List Char
  | .text s => s
  | .idDecl x => idPat x
  | .ref x => hrefPat x
  | .url x => urlPat x

/-- The character stream of a document. -/
def renderDoc : List SvgItem → List Char
  | [] => []
  | it :: d => renderItem it ++ renderDoc d

/-- Cleanliness of one item. -/
def itemOk : SvgItem → Prop
  | .text t => textOk t
  | .idDecl x => nameOk x
  | .ref x => nameOk x
  | .url x => nameOk x

/-- Cleanliness of a document. -/
def docOk (d : List SvgItem) : Prop := ∀ it ∈ d, itemOk it

/-- The id names declared in a document, in order. -/
def docIds : List SvgItem → List (List Char)
  | [] => []
  | .idDecl x :: d => x :: docIds d
  | _ :: d => docIds d

/-- Renaming of one id declaration. -/
def substId (x x' : List Char) : SvgItem → SvgItem
  | .idDecl z => if z = x then .idDecl x' else .idDecl z
  | it => it

/-- Renaming of one `href` reference. -/
def substHref (x x' : List Char) : SvgItem → SvgItem
  | .ref z => if z = x then .ref x' else .ref z
  | it => it

/-- Renaming of one `url` reference. -/
def substUrl (x x' : List Char) : SvgItem → SvgItem
  | .url z => if z = x then .url x' else .url z
  | it => it

/-- One loop iteration of `_make_ids_unique`, at the document level: the
declaration of `x` and every reference to `x` get the prefix, consistently. -/
def prefixStep (pfx : List Char) (d : List SvgItem) (x : List Char) : List SvgItem :=
  ((d.map (substId x (pfx ++ x))).map (substHref x (pfx ++ x))).map (substUrl x (pfx ++ x))

/-- The whole `_make_ids_unique` loop at the document level. -/
def prefixFold (pfx : List Char) (d : List SvgItem) (l : List (List Char)) : List SvgItem :=
  l.foldl (prefixStep pfx) d

instance (x : List Char) : Decidable (nameOk x) :=
  decidable_of_iff (x ≠ [] ∧ ∀ c ∈ x, plainChar c = true) Iff.rfl

instance (t : List Char) : Decidable (textOk t) :=
  decidable_of_iff (¬ idHead <:+: t ∧ ¬ hrefHead <:+: t ∧ ¬ urlHead <:+: t ∧
    ∀ s ∈ t.tails, s ≠ [] → ¬ s <+: idHead ∧ ¬ s <+: hrefHead ∧ ¬ s <+: urlHead) Iff.rfl

instance (it : SvgItem) : Decidable (itemOk it) := by
  cases it with
  | text t => exact inferInstanceAs (Decidable (textOk t))
  | idDecl x => exact inferInstanceAs (Decidable (nameOk x))
  | ref x => exact inferInstanceAs (Decidable (nameOk x))
  | url x => exact inferInstanceAs (Decidable (nameOk x))

instance (d : List SvgItem) : Decidable (docOk d) :=
  decidable_of_iff (∀ it ∈ d, itemOk it) Iff.rfl

theorem digitChar_val {m : Nat} (hm : m < 10) : (Nat.digitChar m).toNat - 48 = m := by
  interval_cases m <;> rfl

theorem digitChar_isDigit {m : Nat} (hm : m < 10) : (Nat.digitChar m).isDigit = true := by
  interval_cases m <;> rfl

theorem toDigitsCore_foldl (fuel : Nat) :
    ∀ n ds, n < 10 ^ fuel →
      (Nat.toDigitsCore 10 fuel n ds).foldl (fun a c => 10 * a + (c.toNat - 48)) 0 =
        ds.foldl (fun a c => 10 * a + (c.toNat - 48)) n := by
  induction fuel with
  | zero =>
    intro n ds h
    interval_cases n
    rfl
  | succ fuel ih =>
    intro n ds h
    rw [show Nat.toDigitsCore 10 (fuel + 1) n ds =
        if n / 10 = 0 then Nat.digitChar (n % 10) :: ds
        else Nat.toDigitsCore 10 fuel (n / 10) (Nat.digitChar (n % 10) :: ds) from by
      simp [Nat.toDigitsCore]]
    by_cases h0 : n / 10 = 0
    · rw [if_pos h0, List.foldl_cons]
      have hn : n < 10 := by omega
      rw [show n % 10 = n from by omega, digitChar_val hn]
      rw [show 10 * 0 + n = n from by omega]
    · rw [if_neg h0]
      have hpow : 10 ^ (fuel + 1) = 10 ^ fuel * 10 := pow_succ 10 fuel
      have hdiv : n / 10 < 10 ^ fuel := by
        have h' : n < 10 ^ fuel * 10 := by omega
        omega
      rw [ih (n / 10) (Nat.digitChar (n % 10) :: ds) hdiv, List.foldl_cons]
      rw [digitChar_val (Nat.mod_lt n (by norm_num))]
      rw [show 10 * (n / 10) + n % 10 = n from by omega]

theorem toString_nat_foldl (n : Nat) :
    (toString n).data.foldl (fun a c => 10 * a + (c.toNat - 48)) 0 = n := by
  have hdata : (toString n).data = Nat.toDigitsCore 10 (n + 1) n [] := rfl
  have hpow : n < 10 ^ (n + 1) := by
    have h1 : n < 10 ^ n := Nat.lt_pow_self (by norm_num) n
    have h2 : 10 ^ n ≤ 10 ^ (n + 1) := Nat.pow_le_pow_right (by norm_num) (Nat.le_succ n)
    omega
  rw [hdata, toDigitsCore_foldl (n + 1) n [] hpow]
  rfl

theorem toString_nat_inj {m n : Nat} (h : (toString m).data = (toString n).data) : m = n := by
  have hm := toString_nat_foldl m
  rw [h, toString_nat_foldl n] at hm
  exact hm.symm

theorem toDigitsCore_isDigit (fuel : Nat) :
    ∀ n ds c, c ∈ Nat.toDigitsCore 10 fuel n ds → c.isDigit = true ∨ c ∈ ds := by
  induction fuel with
  | zero =>
    intro n ds c h
    exact Or.inr h
  | succ fuel ih =>
    intro n ds c h
    rw [show Nat.toDigitsCore 10 (fuel + 1) n ds =
        if n / 10 = 0 then Nat.digitChar (n % 10) :: ds
        else Nat.toDigitsCore 10 fuel (n / 10) (Nat.digitChar (n % 10) :: ds) from by
      simp [Nat.toDigitsCore]] at h
    by_cases h0 : n / 10 = 0
    · rw [if_pos h0] at h
      rcases List.mem_cons.mp h with rfl | h
      · exact Or.inl (digitChar_isDigit (Nat.mod_lt n (by norm_num)))
      · exact Or.inr h
    · rw [if_neg h0] at h
      rcases ih (n / 10) (Nat.digitChar (n % 10) :: ds) c h with h | h
      · exact Or.inl h
      · rcases List.mem_cons.mp h with rfl | h
        · exact Or.inl (digitChar_isDigit (Nat.mod_lt n (by norm_num)))
        · exact Or.inr h

theorem toString_nat_isDigit {n : Nat} {c : Char} (h : c ∈ (toString n).data) :
    c.isDigit = true := by
  have hdata : (toString n).data = Nat.toDigitsCore 10 (n + 1) n [] := rfl
  rw [hdata] at h
  rcases toDigitsCore_isDigit (n + 1) n [] c h with h | h
  · exact h
  · cases h

theorem mjPfx_plain {n : Nat} {c : Char} (h : c ∈ mjPfx n) : plainChar c = true := by
  rw [mjPfx] at h
  rcases List.mem_cons.mp h with rfl | h
  · decide
  rcases List.mem_cons.mp h with rfl | h
  · decide
  rcases List.mem_append.mp h with h | h
  · simp [plainChar, Char.isAlphanum, toString_nat_isDigit h]
  · rcases List.mem_singleton.mp h with rfl
    decide

theorem underscore_close {da db : List Char} (hdb : ∀ c ∈ db, c ≠ '_')
    (h : da ++ ['_'] <+: db ++ ['_']) : da = db := by
  induction da generalizing db with
  | nil =>
    cases db with
    | nil => rfl
    | cons b db' =>
      rw [List.nil_append, List.cons_append, List.cons_prefix_cons] at h
      exact absurd h.1.symm (hdb b (by simp))
  | cons a da' ih =>
    cases db with
    | nil =>
      rw [List.cons_append, List.nil_append, List.cons_prefix_cons] at h
      have hle := h.2.length_le
      simp at hle
    | cons b db' =>
      rw [List.cons_append, List.cons_append, List.cons_prefix_cons] at h
      rw [h.1, ih (fun c hc => hdb c (List.mem_cons_of_mem _ hc)) h.2]

theorem mjPfx_prefix_eq {a b : Nat} (h : mjPfx a <+: mjPfx b) : a = b := by
  rw [mjPfx, mjPfx, List.cons_prefix_cons] at h
  rw [List.cons_prefix_cons] at h
  replace h := h.2.2
  have hda : (toString a).data = (toString b).data :=
    underscore_close
      (fun c hc he => by rw [he] at hc; simpa using toString_nat_isDigit hc) h
  exact toString_nat_inj hda

theorem mjPfx_inj {a b : Nat} {y : List Char} (ha : mjPfx a <+: y) (hb : mjPfx b <+: y) :
    a = b := by
  rcases List.prefix_or_prefix_of_prefix ha hb with h | h
  · exact mjPfx_prefix_eq h
  · exact (mjPfx_prefix_eq h).symm

theorem append_getElem? {l m : List Char} (q : Nat) {c : Char} (h : m[q]? = some c) :
    (l ++ m)[l.length + q]? = some c := by
  rw [List.getElem?_append_right (by omega)]
  rw [show l.length + q - l.length = q from by omega]
  exact h

theorem infix_getElem? {pat seg : List Char} (h : pat <:+: seg) :
    ∃ j, ∀ (q : Nat) (c : Char), pat[q]? = some c → seg[j + q]? = some c := by
  obtain ⟨l, r, hlr⟩ := h
  refine ⟨l.length, fun q c hq => ?_⟩
  obtain ⟨hlt, _⟩ := List.getElem?_eq_some.mp hq
  have h1 : (pat ++ r)[q]? = some c := by
    rw [List.getElem?_append_left hlt]
    exact hq
  rw [← hlr, List.append_assoc]
  exact append_getElem? q h1

theorem suffix_getElem? {s seg : List Char} (h : s <:+ seg) :
    ∃ j, ∀ (q : Nat) (c : Char), s[q]? = some c → seg[j + q]? = some c := by
  obtain ⟨l, hl⟩ := h
  exact ⟨l.length, fun q c hq => by rw [← hl]; exact append_getElem? q hq⟩

theorem prefix_getElem? {s pat : List Char} (h : s <+: pat) {q : Nat} {c : Char}
    (hq : s[q]? = some c) : pat[q]? = some c := by
  obtain ⟨t, ht⟩ := h
  obtain ⟨hlt, _⟩ := List.getElem?_eq_some.mp hq
  rw [← ht, List.getElem?_append_left hlt]
  exact hq

theorem getLast?_of_suffix {s seg : List Char} (h : s <:+ seg) (hne : s ≠ []) :
    seg.getLast? = s.getLast? := by
  obtain ⟨l, hl⟩ := h
  rw [← hl]
  exact List.getLast?_append_of_ne_nil l hne

theorem infix_mem {pat seg : List Char} (h : pat <:+: seg) {c : Char} (hc : c ∈ pat) :
    c ∈ seg := h.subset hc

/-- The two conditions under which no occurrence of `pat` can begin inside
`seg`, whatever follows `seg`: `pat` does not occur inside `seg`, and the
only nonempty suffix of `seg` that is a prefix of `pat` is `pat` itself. -/
def segSafe (pat seg : List Char) : Prop :=
  ¬ pat <:+: seg ∧ ∀ s, s <:+ seg → s ≠ [] → s <+: pat → s = pat

theorem no_match_in_seg {pat seg : List Char} (hs : segSafe pat seg) :
    ∀ tail k, k < seg.length → ¬ pat <+: (seg.drop k ++ tail) := by
  intro tail k hk hpre
  have hsuf : seg.drop k <:+ seg := List.drop_suffix k seg
  have hslen : (seg.drop k).length = seg.length - k := List.length_drop k seg
  have hne : seg.drop k ≠ [] := List.ne_nil_of_length_pos (by omega)
  rcases le_or_lt pat.length (seg.drop k).length with hle | hlt
  · have h1 : pat <+: seg.drop k := by
      have h2 := List.prefix_iff_eq_take.mp hpre
      rw [List.take_append_of_le_length hle] at h2
      rw [h2]
      exact List.take_prefix _ _
    exact hs.1 (h1.isInfix.trans hsuf.isInfix)
  · have h2 : seg.drop k <+: pat := by
      obtain ⟨t, ht⟩ := hpre
      have h3 : (pat ++ t).take (seg.drop k).length =
          (seg.drop k ++ tail).take (seg.drop k).length := by rw [ht]
      rw [List.take_append_of_le_length hlt.le, List.take_left] at h3
      rw [← h3]
      exact List.take_prefix _ _
    have h4 := hs.2 _ hsuf hne h2
    rw [h4] at hlt
    exact absurd hlt (lt_irrefl _)

theorem plain_ne {c : Char} (h : plainChar c = true) :
    c ≠ '"' ∧ c ≠ '=' ∧ c ≠ '#' ∧ c ≠ '(' ∧ c ≠ ')' := by
  refine ⟨?_, ?_, ?_, ?_, ?_⟩ <;> · rintro rfl; exact absurd h (by decide)

theorem plain_notQuote {c : Char} (h : plainChar c = true) : notQuote c = true := by
  simp [notQuote, (plain_ne h).1]

theorem takeWhile_plain {z : List Char} (h : ∀ c ∈ z, notQuote c = true) (r : List Char) :
    (z ++ '"' :: r).takeWhile notQuote = z := by
  induction z with
  | nil =>
    rw [List.nil_append, List.takeWhile_cons]
    simp [notQuote]
  | cons a z' ih =>
    rw [List.cons_append, List.takeWhile_cons, if_pos (h a (by simp))]
    rw [ih (fun c hc => h c (List.mem_cons_of_mem _ hc))]

theorem dropWhile_plain {z : List Char} (h : ∀ c ∈ z, notQuote c = true) (r : List Char) :
    (z ++ '"' :: r).dropWhile notQuote = '"' :: r := by
  induction z with
  | nil =>
    rw [List.nil_append, List.dropWhile_cons]
    simp [notQuote]
  | cons a z' ih =>
    rw [List.cons_append, List.dropWhile_cons, if_pos (h a (by simp))]
    exact ih (fun c hc => h c (List.mem_cons_of_mem _ hc))

theorem replaceAllF_nil (f : Nat) (pat rep : List Char) : replaceAllF f [] pat rep = [] := by
  cases f <;> rfl

theorem replaceAllF_cons (f : Nat) (c : Char) (cs pat rep : List Char) :
    replaceAllF (f + 1) (c :: cs) pat rep =
      if pat.isPrefixOf (c :: cs) then
        rep ++ replaceAllF f (List.drop pat.length (c :: cs)) pat rep
      else c :: replaceAllF f cs pat rep := rfl

theorem replaceAllF_fuel {pat rep : List Char} (hp : pat ≠ []) :
    ∀ f s, s.length ≤ f → replaceAllF f s pat rep = replaceAllF s.length s pat rep := by
  intro f
  induction f using Nat.strong_induction_on with
  | _ f ih =>
    intro s hs
    cases s with
    | nil => rw [replaceAllF_nil, replaceAllF_nil]
    | cons c cs =>
      cases f with
      | zero => simp at hs
      | succ f' =>
        have hlen : cs.length ≤ f' := by
          simp only [List.length_cons] at hs
          omega
        rw [show (c :: cs).length = cs.length + 1 from rfl, replaceAllF_cons, replaceAllF_cons]
        have hpl : 0 < pat.length := List.length_pos.mpr hp
        by_cases hpre : pat.isPrefixOf (c :: cs) = true
        · rw [if_pos hpre, if_pos hpre]
          have hd : (List.drop pat.length (c :: cs)).length ≤ cs.length := by
            rw [List.length_drop]
            simp only [List.length_cons]
            omega
          rw [ih f' (Nat.lt_succ_self f') _ (le_trans hd hlen),
            ih cs.length (Nat.lt_succ_of_le hlen) _ hd]
        · rw [if_neg hpre, if_neg hpre, ih f' (Nat.lt_succ_self f') cs hlen]

theorem replaceAll_eq {pat : List Char} (hp : pat ≠ []) (s rep : List Char) :
    replaceAll s pat rep = replaceAllF s.length s pat rep := by
  have h : pat.isEmpty = false := by
    cases pat with
    | nil => exact absurd rfl hp
    | cons c cs => rfl
  rw [replaceAll]
  simp [h]

theorem replaceAll_nil (pat rep : List Char) : replaceAll [] pat rep = [] := by
  rw [replaceAll]
  split
  · rfl
  · rfl

theorem replaceAll_cons_neg {pat : List Char} (hp : pat ≠ []) {c : Char} {cs : List Char}
    (hpre : ¬ pat <+: (c :: cs)) (rep : List Char) :
    replaceAll (c :: cs) pat rep = c :: replaceAll cs pat rep := by
  rw [replaceAll_eq hp, replaceAll_eq hp]
  rw [show (c :: cs).length = cs.length + 1 from rfl, replaceAllF_cons]
  rw [if_neg (by rw [List.isPrefixOf_iff_prefix]; exact hpre)]

theorem replaceAll_cons_pos {pat : List Char} (hp : pat ≠ []) {c : Char} {cs : List Char}
    (hpre : pat <+: (c :: cs)) (rep : List Char) :
    replaceAll (c :: cs) pat rep =
      rep ++ replaceAll (List.drop pat.length (c :: cs)) pat rep := by
  rw [replaceAll_eq hp, replaceAll_eq hp]
  rw [show (c :: cs).length = cs.length + 1 from rfl, replaceAllF_cons]
  rw [if_pos (List.isPrefixOf_iff_prefix.mpr hpre)]
  congr 1
  have hpl : 0 < pat.length := List.length_pos.mpr hp
  have hd : (List.drop pat.length (c :: cs)).length ≤ cs.length := by
    rw [List.length_drop]
    simp only [List.length_cons]
    omega
  exact replaceAllF_fuel hp cs.length _ hd

theorem replaceAll_skip {pat : List Char} (hp : pat ≠ []) (rep : List Char) :
    ∀ seg tail, (∀ k, k < seg.length → ¬ pat <+: (seg.drop k ++ tail)) →
      replaceAll (seg ++ tail) pat rep = seg ++ replaceAll tail pat rep := by
  intro seg
  induction seg with
  | nil =>
    intro tail _
    rw [List.nil_append, List.nil_append]
  | cons c seg' ih =>
    intro tail h
    have h0 : ¬ pat <+: ((c :: seg') ++ tail) := by simpa using h 0 (by simp)
    rw [List.cons_append, replaceAll_cons_neg hp (by rw [← List.cons_append]; exact h0) rep]
    rw [ih tail (fun k hk => by
      have h1 := h (k + 1) (by simp only [List.length_cons]; omega)
      simpa using h1)]
    rw [List.cons_append]

theorem replaceAll_head {pat : List Char} (hp : pat ≠ []) (tail rep : List Char) :
    replaceAll (pat ++ tail) pat rep = rep ++ replaceAll tail pat rep := by
  cases pat with
  | nil => exact absurd rfl hp
  | cons c p' =>
    rw [List.cons_append,
      replaceAll_cons_pos hp (by rw [← List.cons_append]; exact List.prefix_append _ _) rep]
    rw [show List.drop (c :: p').length (c :: (p' ++ tail)) = tail from by
      simp only [List.length_cons, List.drop_succ_cons]
      exact List.drop_left p' tail]

theorem findIdsF_nil (f : Nat) : findIdsF f [] = [] := by
  cases f <;> rfl

theorem findIdsF_cons (f : Nat) (c : Char) (cs : List Char) :
    findIdsF (f + 1) (c :: cs) =
      if idHead.isPrefixOf (c :: cs) then
        if ((c :: cs).drop 4).takeWhile notQuote ≠ [] ∧
            ((c :: cs).drop 4).dropWhile notQuote ≠ [] then
          ((c :: cs).drop 4).takeWhile notQuote ::
            findIdsF f ((((c :: cs).drop 4).dropWhile notQuote).drop 1)
        else findIdsF f cs
      else findIdsF f cs := rfl

theorem findIdsF_fuel :
    ∀ f cs, cs.length ≤ f → findIdsF f cs = findIdsF cs.length cs := by
  intro f
  induction f using Nat.strong_induction_on with
  | _ f ih =>
    intro cs hcs
    cases cs with
    | nil => rw [findIdsF_nil, findIdsF_nil]
    | cons c cs' =>
      cases f with
      | zero => simp at hcs
      | succ f' =>
        have hlen : cs'.length ≤ f' := by
          simp only [List.length_cons] at hcs
          omega
        rw [show (c :: cs').length = cs'.length + 1 from rfl, findIdsF_cons, findIdsF_cons]
        by_cases hpre : idHead.isPrefixOf (c :: cs') = true
        · rw [if_pos hpre, if_pos hpre]
          by_cases hcap : ((c :: cs').drop 4).takeWhile notQuote ≠ [] ∧
              ((c :: cs').drop 4).dropWhile notQuote ≠ []
          · rw [if_pos hcap, if_pos hcap]
            congr 1
            have h1 : (((c :: cs').drop 4).dropWhile notQuote).length ≤
                ((c :: cs').drop 4).length :=
              (List.dropWhile_sublist notQuote).length_le
            have h2 : ((c :: cs').drop 4).length = cs'.length + 1 - 4 := by
              rw [List.length_drop]
              simp only [List.length_cons]
            have hd : ((((c :: cs').drop 4).dropWhile notQuote).drop 1).length ≤ cs'.length := by
              rw [List.length_drop]
              omega
            rw [ih f' (Nat.lt_succ_self f') _ (le_trans hd hlen),
              ih cs'.length (Nat.lt_succ_of_le hlen) _ hd]
          · rw [if_neg hcap, if_neg hcap, ih f' (Nat.lt_succ_self f') cs' hlen]
        · rw [if_neg hpre, if_neg hpre, ih f' (Nat.lt_succ_self f') cs' hlen]

theorem findIds_skip {seg : List Char} (tail : List Char)
    (h : ∀ k, k < seg.length → ¬ idHead <+: (seg.drop k ++ tail)) :
    findIds (seg ++ tail) = findIds tail := by
  induction seg with
  | nil => rw [List.nil_append]
  | cons c seg' ih =>
    have h0 : ¬ idHead <+: ((c :: seg') ++ tail) := by simpa using h 0 (by simp)
    rw [findIds, List.cons_append,
      show (c :: (seg' ++ tail)).length = (seg' ++ tail).length + 1 from rfl, findIdsF_cons]
    rw [if_neg (by rw [List.isPrefixOf_iff_prefix, ← List.cons_append]; exact h0)]
    rw [show findIdsF (seg' ++ tail).length (seg' ++ tail) = findIds (seg' ++ tail) from rfl]
    exact ih (fun k hk => by
      have h1 := h (k + 1) (by simp only [List.length_cons]; omega)
      simpa using h1)

theorem findIds_idDecl {z : List Char} (hz : nameOk z) (tail : List Char) :
    findIds (idPat z ++ tail) = z :: findIds tail := by
  have hplain : ∀ c ∈ z, notQuote c = true := fun c hc => plain_notQuote (hz.2 c hc)
  have harr : idPat z ++ tail = 'i' :: 'd' :: '=' :: '"' :: (z ++ '"' :: tail) := by
    rw [idPat]
    simp
  rw [harr, findIds,
    show ('i' :: 'd' :: '=' :: '"' :: (z ++ '"' :: tail)).length =
      ('d' :: '=' :: '"' :: (z ++ '"' :: tail)).length + 1 from rfl,
    findIdsF_cons]
  rw [if_pos (show idHead.isPrefixOf ('i' :: 'd' :: '=' :: '"' :: (z ++ '"' :: tail)) = true from
    List.isPrefixOf_iff_prefix.mpr ⟨z ++ '"' :: tail, rfl⟩)]
  rw [show ('i' :: 'd' :: '=' :: '"' :: (z ++ '"' :: tail)).drop 4 = z ++ '"' :: tail from rfl]
  rw [takeWhile_plain hplain tail, dropWhile_plain hplain tail]
  rw [if_pos ⟨hz.1, by simp⟩]
  rw [show ('"' :: tail).drop 1 = tail from rfl]
  congr 1
  rw [findIdsF_fuel _ tail (by
    simp only [List.length_cons, List.length_append]
    omega)]
  rfl

theorem prefix_cancel_left (l : List Char) {u v : List Char} (h : l ++ u <+: l ++ v) :
    u <+: v := by
  obtain ⟨t, ht⟩ := h
  rw [List.append_assoc] at ht
  exact ⟨t, List.append_cancel_left ht⟩

theorem close_prefix {q : Char} {da db : List Char} (hdb : ∀ c ∈ db, c ≠ q)
    (h : da ++ [q] <+: db ++ [q]) : da = db := by
  induction da generalizing db with
  | nil =>
    cases db with
    | nil => rfl
    | cons b db' =>
      rw [List.nil_append, List.cons_append, List.cons_prefix_cons] at h
      exact absurd h.1.symm (hdb b (by simp))
  | cons a da' ih =>
    cases db with
    | nil =>
      rw [List.cons_append, List.nil_append, List.cons_prefix_cons] at h
      have hle := h.2.length_le
      simp at hle
    | cons b db' =>
      rw [List.cons_append, List.cons_append, List.cons_prefix_cons] at h
      rw [h.1, ih (fun c hc => hdb c (List.mem_cons_of_mem _ hc)) h.2]

theorem suffix_close_cancel {q : Char} {s z : List Char} (h : s ++ [q] <:+ z ++ [q]) :
    s <:+ z := by
  obtain ⟨l, hl⟩ := h
  rw [← List.append_assoc] at hl
  exact ⟨l, List.append_cancel_right hl⟩

theorem mem_of_getLast? {s : List Char} {c : Char} (h : s.getLast? = some c) : c ∈ s := by
  have h2 : s[s.length - 1]? = some c := by
    rw [← List.getLast?_eq_getElem?]
    exact h
  exact List.getElem?_mem h2

theorem prefix_split {s hd m : List Char} (hs : s <+: hd ++ m) :
    (s.length ≤ hd.length ∧ s <+: hd) ∨ (∃ s2, s = hd ++ s2 ∧ s2 <+: m) := by
  rcases le_or_lt s.length hd.length with h | h
  · exact Or.inl ⟨h, List.prefix_of_prefix_length_le hs (List.prefix_append hd m) h⟩
  · right
    have hhd : hd <+: s := List.prefix_of_prefix_length_le (List.prefix_append hd m) hs h.le
    obtain ⟨s2, hs2⟩ := hhd
    refine ⟨s2, hs2.symm, ?_⟩
    rw [← hs2] at hs
    exact prefix_cancel_left hd hs

theorem prefix_end_close_name {q : Char} {x : List Char} (hx : ∀ c ∈ x, c ≠ q) :
    ∀ s, s <+: x ++ [q] → s ≠ [] → s.getLast? = some q → s = x ++ [q] := by
  induction x with
  | nil =>
    intro s hs hne _
    cases s with
    | nil => exact absurd rfl hne
    | cons a s' =>
      rw [List.nil_append, List.cons_prefix_cons] at hs
      have h2 := hs.2.length_le
      simp at h2
      rw [List.nil_append, hs.1, h2]
  | cons b x' ih =>
    intro s hs hne hq
    cases s with
    | nil => exact absurd rfl hne
    | cons a s' =>
      rw [List.cons_append, List.cons_prefix_cons] at hs
      cases s' with
      | nil =>
        rw [List.getLast?_singleton] at hq
        rw [hs.1] at hq
        exact absurd (Option.some.inj hq) (hx b (by simp))
      | cons a2 s2 =>
        have hq2 : (a2 :: s2).getLast? = some q := by
          rw [← hq, List.getLast?_cons_cons]
        rw [List.cons_append, hs.1,
          ih (fun c hc => hx c (List.mem_cons_of_mem _ hc)) (a2 :: s2) hs.2 (by simp) hq2]

theorem idHead_quote_prefix :
    ∀ t, t <+: idHead → t ≠ [] → t.getLast? = some '"' → t = idHead := by
  intro t ht hne hq
  obtain ⟨n, hn⟩ : ∃ n, t.length = n := ⟨_, rfl⟩
  have htake := List.prefix_iff_eq_take.mp ht
  rw [hn] at htake
  have h1 : 1 ≤ n := by
    rw [← hn]
    exact List.length_pos.mpr hne
  have h4 : n ≤ 4 := by
    rw [← hn]
    exact ht.length_le
  interval_cases n <;> subst htake
  · exact absurd hq (by decide)
  · exact absurd hq (by decide)
  · exact absurd hq (by decide)
  · rfl

theorem hrefHead_quote_prefix :
    ∀ t, t <+: hrefHead → t ≠ [] → t.getLast? = some '"' →
      t = ['h', 'r', 'e', 'f', '=', '"'] := by
  intro t ht hne hq
  obtain ⟨n, hn⟩ : ∃ n, t.length = n := ⟨_, rfl⟩
  have htake := List.prefix_iff_eq_take.mp ht
  rw [hn] at htake
  have h1 : 1 ≤ n := by
    rw [← hn]
    exact List.length_pos.mpr hne
  have h4 : n ≤ 7 := by
    rw [← hn]
    exact ht.length_le
  interval_cases n <;> subst htake
  · exact absurd hq (by decide)
  · exact absurd hq (by decide)
  · exact absurd hq (by decide)
  · exact absurd hq (by decide)
  · exact absurd hq (by decide)
  · rfl
  · exact absurd hq (by decide)

theorem urlHead_paren_starts :
    ∀ t, t <+: urlHead → t ≠ [] → t.getLast? = some ')' → False := by
  intro t ht hne hq
  obtain ⟨n, hn⟩ : ∃ n, t.length = n := ⟨_, rfl⟩
  have htake := List.prefix_iff_eq_take.mp ht
  rw [hn] at htake
  have h1 : 1 ≤ n := by
    rw [← hn]
    exact List.length_pos.mpr hne
  have h4 : n ≤ 5 := by
    rw [← hn]
    exact ht.length_le
  interval_cases n <;> subst htake <;> exact absurd hq (by decide)

theorem idHead_suffix_head :
    ∀ u, u <:+ idHead → u ≠ [] → u ≠ idHead →
      u.head? = some 'd' ∨ u.head? = some '=' ∨ u.head? = some '"' := by
  intro u hu hne hfull
  obtain ⟨n, hn⟩ : ∃ n, u.length = n := ⟨_, rfl⟩
  have hdrop := List.suffix_iff_eq_drop.mp hu
  rw [hn] at hdrop
  have h1 : 1 ≤ n := by
    rw [← hn]
    exact List.length_pos.mpr hne
  have h4 : n ≤ 4 := by
    rw [← hn]
    exact hu.length_le
  interval_cases n <;> subst hdrop
  · decide
  · decide
  · decide
  · exact absurd rfl hfull

theorem hrefHead_suffix_head :
    ∀ u, u <:+ hrefHead → u ≠ [] → u ≠ hrefHead →
      u.head? = some 'r' ∨ u.head? = some 'e' ∨ u.head? = some 'f' ∨
        u.head? = some '=' ∨ u.head? = some '"' ∨ u.head? = some '#' := by
  intro u hu hne hfull
  obtain ⟨n, hn⟩ : ∃ n, u.length = n := ⟨_, rfl⟩
  have hdrop := List.suffix_iff_eq_drop.mp hu
  rw [hn] at hdrop
  have h1 : 1 ≤ n := by
    rw [← hn]
    exact List.length_pos.mpr hne
  have h4 : n ≤ 7 := by
    rw [← hn]
    exact hu.length_le
  interval_cases n <;> subst hdrop
  · decide
  · decide
  · decide
  · decide
  · decide
  · decide
  · exact absurd rfl hfull

theorem urlHead_suffix_head :
    ∀ u, u <:+ urlHead → u ≠ [] → u ≠ urlHead →
      u.head? = some 'r' ∨ u.head? = some 'l' ∨ u.head? = some '(' ∨
        u.head? = some '#' := by
  intro u hu hne hfull
  obtain ⟨n, hn⟩ : ∃ n, u.length = n := ⟨_, rfl⟩
  have hdrop := List.suffix_iff_eq_drop.mp hu
  rw [hn] at hdrop
  have h1 : 1 ≤ n := by
    rw [← hn]
    exact List.length_pos.mpr hne
  have h4 : n ≤ 5 := by
    rw [← hn]
    exact hu.length_le
  interval_cases n <;> subst hdrop
  · decide
  · decide
  · decide
  · decide
  · exact absurd rfl hfull

theorem idPat_eq (x : List Char) : idPat x = idHead ++ (x ++ ['"']) := rfl

theorem hrefPat_eq (x : List Char) : hrefPat x = hrefHead ++ (x ++ ['"']) := rfl

theorem urlPat_eq (x : List Char) : urlPat x = urlHead ++ (x ++ [')']) := rfl

theorem idPat_eq2 (z : List Char) : idPat z = (idHead ++ z) ++ ['"'] := by
  rw [idPat, idHead]
  simp

theorem hrefPat_eq2 (z : List Char) : hrefPat z = (hrefHead ++ z) ++ ['"'] := by
  rw [hrefPat, hrefHead]
  simp

theorem idPat_getLast (x : List Char) : (idPat x).getLast? = some '"' := by
  rw [idPat_eq2]
  exact List.getLast?_concat _

theorem hrefPat_getLast (x : List Char) : (hrefPat x).getLast? = some '"' := by
  rw [hrefPat_eq2]
  exact List.getLast?_concat _

theorem urlPat_getLast (x : List Char) : (urlPat x).getLast? = some ')' := by
  rw [show urlPat x = (urlHead ++ x) ++ [')'] from by rw [urlPat, urlHead]; simp]
  exact List.getLast?_concat _

theorem mem_idPat {c : Char} {x : List Char} (h : c ∈ idPat x) :
    c = 'i' ∨ c = 'd' ∨ c = '=' ∨ c = '"' ∨ c ∈ x := by
  rw [idPat] at h
  simp only [List.mem_cons, List.mem_append, List.mem_singleton] at h
  tauto

theorem mem_hrefPat {c : Char} {x : List Char} (h : c ∈ hrefPat x) :
    c = 'h' ∨ c = 'r' ∨ c = 'e' ∨ c = 'f' ∨ c = '=' ∨ c = '"' ∨ c = '#' ∨ c ∈ x := by
  rw [hrefPat] at h
  simp only [List.mem_cons, List.mem_append, List.mem_singleton] at h
  tauto

theorem mem_urlPat {c : Char} {x : List Char} (h : c ∈ urlPat x) :
    c = 'u' ∨ c = 'r' ∨ c = 'l' ∨ c = '(' ∨ c = '#' ∨ c = ')' ∨ c ∈ x := by
  rw [urlPat] at h
  simp only [List.mem_cons, List.mem_append, List.mem_singleton] at h
  tauto

theorem infix_to_prefix {pat hd z : List Char} {q : Char} (hne : pat ≠ [])
    (hinf : pat <:+: hd ++ (z ++ [q]))
    (hstar : ∃ cs, cs ∈ pat ∧ cs ∉ z ∧ cs ≠ q)
    (hhd : ∀ u, u <:+ hd → u ≠ [] → u ≠ hd → ∀ c, pat.head? = some c → u.head? ≠ some c) :
    pat <+: hd ++ (z ++ [q]) := by
  obtain ⟨l, r, hseg⟩ := hinf
  rw [List.append_assoc] at hseg
  have hl : l <+: hd ++ (z ++ [q]) := ⟨pat ++ r, hseg⟩
  rcases prefix_split hl with ⟨hlen, hpre⟩ | ⟨l2, rfl, hl2⟩
  · cases l with
    | nil => exact ⟨r, by rw [← hseg, List.nil_append]⟩
    | cons c0 l' =>
      by_cases hfull : (c0 :: l') = hd
      · rw [hfull] at hseg
        have hcan := List.append_cancel_left hseg
        obtain ⟨cs, hcs, hcsz, hcsq⟩ := hstar
        have hmem : cs ∈ z ++ [q] := by
          rw [← hcan]
          exact List.mem_append.mpr (Or.inl hcs)
        rcases List.mem_append.mp hmem with hm | hm
        · exact absurd hm hcsz
        · exact absurd (List.mem_singleton.mp hm) hcsq
      · obtain ⟨u, hu⟩ := hpre
        have hune : u ≠ [] := by
          intro h0
          rw [h0, List.append_nil] at hu
          exact hfull hu
        rw [← hu, List.append_assoc] at hseg
        have hcan := List.append_cancel_left hseg
        cases pat with
        | nil => exact absurd rfl hne
        | cons p0 pt =>
          cases u with
          | nil => exact absurd rfl hune
          | cons u0 ut =>
            rw [List.cons_append, List.cons_append] at hcan
            injection hcan with h0 hrest
            have husuf : (u0 :: ut) <:+ hd := ⟨c0 :: l', hu⟩
            have hufull : (u0 :: ut) ≠ hd := by
              intro h2
              have h3 : (c0 :: l').length + (u0 :: ut).length = hd.length := by
                rw [← hu, List.length_append]
              rw [h2] at h3
              simp only [List.length_cons] at h3
              omega
            exact absurd (show (u0 :: ut).head? = some p0 from by rw [List.head?_cons, h0])
              (hhd (u0 :: ut) husuf (by simp) hufull p0 rfl)
  · rw [List.append_assoc] at hseg
    have hcan := List.append_cancel_left hseg
    obtain ⟨cs, hcs, hcsz, hcsq⟩ := hstar
    have hmem : cs ∈ z ++ [q] := by
      rw [← hcan]
      exact List.mem_append.mpr (Or.inr (List.mem_append.mpr (Or.inl hcs)))
    rcases List.mem_append.mp hmem with hm | hm
    · exact absurd hm hcsz
    · exact absurd (List.mem_singleton.mp hm) hcsq

theorem hhd_idHead {pat : List Char}
    (hp : pat.head? = some 'i' ∨ pat.head? = some 'h' ∨ pat.head? = some 'u') :
    ∀ u, u <:+ idHead → u ≠ [] → u ≠ idHead →
      ∀ c, pat.head? = some c → u.head? ≠ some c := by
  intro u hu hne hfull c hc hcon
  rcases idHead_suffix_head u hu hne hfull with h | h | h <;>
    rcases hp with hp | hp | hp <;>
      (rw [h] at hcon
       rw [hp] at hc
       exact absurd ((Option.some.inj hcon).trans (Option.some.inj hc).symm) (by decide))

theorem hhd_hrefHead {pat : List Char}
    (hp : pat.head? = some 'i' ∨ pat.head? = some 'h' ∨ pat.head? = some 'u') :
    ∀ u, u <:+ hrefHead → u ≠ [] → u ≠ hrefHead →
      ∀ c, pat.head? = some c → u.head? ≠ some c := by
  intro u hu hne hfull c hc hcon
  rcases hrefHead_suffix_head u hu hne hfull with h | h | h | h | h | h <;>
    rcases hp with hp | hp | hp <;>
      (rw [h] at hcon
       rw [hp] at hc
       exact absurd ((Option.some.inj hcon).trans (Option.some.inj hc).symm) (by decide))

theorem hhd_urlHead {pat : List Char}
    (hp : pat.head? = some 'i' ∨ pat.head? = some 'h' ∨ pat.head? = some 'u') :
    ∀ u, u <:+ urlHead → u ≠ [] → u ≠ urlHead →
      ∀ c, pat.head? = some c → u.head? ≠ some c := by
  intro u hu hne hfull c hc hcon
  rcases urlHead_suffix_head u hu hne hfull with h | h | h | h <;>
    rcases hp with hp | hp | hp <;>
      (rw [h] at hcon
       rw [hp] at hc
       exact absurd ((Option.some.inj hcon).trans (Option.some.inj hc).symm) (by decide))

theorem end_marker_not_suffix {u : Char} {w hd z : List Char} (hz1 : z ≠ [])
    (hz : ∀ c ∈ z, plainChar c = true) (hw : w.getLast? = some u)
    (hu : plainChar u = false) : ¬ (w ++ ['"']) <:+ (hd ++ z) ++ ['"'] := by
  intro h
  have h2 : w <:+ hd ++ z := suffix_close_cancel h
  have hwne : w ≠ [] := by
    intro h0
    rw [h0] at hw
    simp at hw
  have h3 : (hd ++ z).getLast? = some u := (getLast?_of_suffix h2 hwne).trans hw
  rw [List.getLast?_append_of_ne_nil hd hz1] at h3
  have h4 := mem_of_getLast? h3
  rw [hz u h4] at hu
  exact absurd hu (by decide)

theorem not_mem_plain {c : Char} (hcp : plainChar c = false) {z : List Char}
    (hz : ∀ c2 ∈ z, plainChar c2 = true) : c ∉ z := by
  intro hm
  rw [hz c hm] at hcp
  exact absurd hcp (by decide)

theorem eq_not_mem_urlPat {x : List Char} (hx : ∀ c ∈ x, plainChar c = true) :
    ('=' : Char) ∉ urlPat x := by
  intro h
  rcases mem_urlPat h with h | h | h | h | h | h | h
  · exact absurd h (by decide)
  · exact absurd h (by decide)
  · exact absurd h (by decide)
  · exact absurd h (by decide)
  · exact absurd h (by decide)
  · exact absurd h (by decide)
  · exact absurd (hx _ h) (by decide)

theorem quote_not_mem_urlPat {x : List Char} (hx : ∀ c ∈ x, plainChar c = true) :
    ('"' : Char) ∉ urlPat x := by
  intro h
  rcases mem_urlPat h with h | h | h | h | h | h | h
  · exact absurd h (by decide)
  · exact absurd h (by decide)
  · exact absurd h (by decide)
  · exact absurd h (by decide)
  · exact absurd h (by decide)
  · exact absurd h (by decide)
  · exact absurd (hx _ h) (by decide)

theorem hash_not_mem_idPat {x : List Char} (hx : ∀ c ∈ x, plainChar c = true) :
    ('#' : Char) ∉ idPat x := by
  intro h
  rcases mem_idPat h with h | h | h | h | h
  · exact absurd h (by decide)
  · exact absurd h (by decide)
  · exact absurd h (by decide)
  · exact absurd h (by decide)
  · exact absurd (hx _ h) (by decide)

theorem lparen_not_mem_idPat {x : List Char} (hx : ∀ c ∈ x, plainChar c = true) :
    ('(' : Char) ∉ idPat x := by
  intro h
  rcases mem_idPat h with h | h | h | h | h
  · exact absurd h (by decide)
  · exact absurd h (by decide)
  · exact absurd h (by decide)
  · exact absurd h (by decide)
  · exact absurd (hx _ h) (by decide)

theorem lparen_not_mem_hrefPat {x : List Char} (hx : ∀ c ∈ x, plainChar c = true) :
    ('(' : Char) ∉ hrefPat x := by
  intro h
  rcases mem_hrefPat h with h | h | h | h | h | h | h | h
  · exact absurd h (by decide)
  · exact absurd h (by decide)
  · exact absurd h (by decide)
  · exact absurd h (by decide)
  · exact absurd h (by decide)
  · exact absurd h (by decide)
  · exact absurd h (by decide)
  · exact absurd (hx _ h) (by decide)

theorem paren_not_mem_idPat {x : List Char} (hx : ∀ c ∈ x, plainChar c = true) :
    (')' : Char) ∉ idPat x := by
  intro h
  rcases mem_idPat h with h | h | h | h | h
  · exact absurd h (by decide)
  · exact absurd h (by decide)
  · exact absurd h (by decide)
  · exact absurd h (by decide)
  · exact absurd (hx _ h) (by decide)

theorem paren_not_mem_hrefPat {x : List Char} (hx : ∀ c ∈ x, plainChar c = true) :
    (')' : Char) ∉ hrefPat x := by
  intro h
  rcases mem_hrefPat h with h | h | h | h | h | h | h | h
  · exact absurd h (by decide)
  · exact absurd h (by decide)
  · exact absurd h (by decide)
  · exact absurd h (by decide)
  · exact absurd h (by decide)
  · exact absurd h (by decide)
  · exact absurd h (by decide)
  · exact absurd (hx _ h) (by decide)

theorem prefix_head_eq {pat m : List Char} (h : pat <+: m) {c : Char}
    (hc : pat.head? = some c) : m.head? = some c := by
  obtain ⟨t, ht⟩ := h
  cases pat with
  | nil => simp at hc
  | cons p0 pt =>
    rw [← ht, List.cons_append, List.head?_cons]
    rw [List.head?_cons] at hc
    exact hc

theorem prefix_end_close (w : List Char) {hd x s : List Char} {q : Char}
    (hs : s <+: hd ++ (x ++ [q])) (hne : s ≠ []) (hq : s.getLast? = some q)
    (hx : ∀ c ∈ x, c ≠ q)
    (hhd : ∀ t, t <+: hd → t ≠ [] → t.getLast? = some q → t = w) :
    s = w ∨ s = hd ++ (x ++ [q]) := by
  rcases prefix_split hs with ⟨hlen, hpre⟩ | ⟨s2, rfl, hs2⟩
  · exact Or.inl (hhd s hpre hne hq)
  · by_cases h2 : s2 = []
    · subst h2
      rw [List.append_nil] at hq hne ⊢
      exact Or.inl (hhd hd (List.prefix_refl hd) hne hq)
    · have hlast : s2.getLast? = some q := by
        rw [List.getLast?_append_of_ne_nil hd h2] at hq
        exact hq
      exact Or.inr (by rw [prefix_end_close_name hx s2 hs2 h2 hlast])

theorem idPat_prefix_inj {x z : List Char} (hz : ∀ c ∈ z, plainChar c = true)
    (h : idPat x <+: idPat z) : x = z := by
  rw [idPat_eq, idPat_eq] at h
  exact close_prefix (fun c hc => (plain_ne (hz c hc)).1) (prefix_cancel_left idHead h)

theorem hrefPat_prefix_inj {x z : List Char} (hz : ∀ c ∈ z, plainChar c = true)
    (h : hrefPat x <+: hrefPat z) : x = z := by
  rw [hrefPat_eq, hrefPat_eq] at h
  exact close_prefix (fun c hc => (plain_ne (hz c hc)).1) (prefix_cancel_left hrefHead h)

theorem urlPat_prefix_inj {x z : List Char} (hz : ∀ c ∈ z, plainChar c = true)
    (h : urlPat x <+: urlPat z) : x = z := by
  rw [urlPat_eq, urlPat_eq] at h
  exact close_prefix (fun c hc => (plain_ne (hz c hc)).2.2.2.2) (prefix_cancel_left urlHead h)

theorem segSafe_of_head {pat head t : List Char} (hhp : head <+: pat)
    (h1 : ¬ head <:+: t)
    (h4 : ∀ s, s <:+ t → s ≠ [] → ¬ s <+: head) : segSafe pat t := by
  constructor
  · intro hinf
    exact h1 (hhp.isInfix.trans hinf)
  · intro s hsuf hne hpre
    rcases le_or_lt s.length head.length with hle | hlt
    · exact absurd (List.prefix_of_prefix_length_le hpre hhp hle) (h4 s hsuf hne)
    · have h2 : head <+: s := List.prefix_of_prefix_length_le hhp hpre hlt.le
      exact absurd (h2.isInfix.trans hsuf.isInfix) h1

theorem segSafe_id_id {x z : List Char} (hx : nameOk x) (hz : nameOk z) (hne : x ≠ z) :
    segSafe (idPat x) (idPat z) := by
  constructor
  · intro hinf
    rw [idPat_eq z] at hinf
    have hpre := infix_to_prefix (by simp [idPat]) hinf
      ⟨'=', by simp [idPat], not_mem_plain (by decide) hz.2, by decide⟩
      (hhd_idHead (Or.inl rfl))
    rw [← idPat_eq z] at hpre
    exact hne (idPat_prefix_inj hz.2 hpre)
  · intro s hsuf hne2 hpre
    have hlast : s.getLast? = some '"' :=
      (getLast?_of_suffix hsuf hne2).symm.trans (idPat_getLast z)
    rw [idPat_eq x] at hpre
    rcases prefix_end_close idHead hpre hne2 hlast (fun c hc => (plain_ne (hx.2 c hc)).1)
      idHead_quote_prefix with hP | hfull
    · subst hP
      rw [idPat_eq2 z] at hsuf
      exact absurd (show ((['i', 'd', '='] : List Char) ++ ['"']) <:+ (idHead ++ z) ++ ['"']
        from hsuf)
        (end_marker_not_suffix hz.1 hz.2 rfl (by decide))
    · rw [← idPat_eq x] at hfull
      exact hfull

theorem segSafe_id_href {x z : List Char} (hx : nameOk x) (hz : nameOk z) :
    segSafe (idPat x) (hrefPat z) := by
  constructor
  · intro hinf
    rw [hrefPat_eq z] at hinf
    have hpre := infix_to_prefix (by simp [idPat]) hinf
      ⟨'=', by simp [idPat], not_mem_plain (by decide) hz.2, by decide⟩
      (hhd_hrefHead (Or.inl rfl))
    have h2 := prefix_head_eq hpre (show (idPat x).head? = some 'i' from rfl)
    rw [show (hrefHead ++ (z ++ ['"'])).head? = some 'h' from rfl] at h2
    exact absurd (Option.some.inj h2) (by decide)
  · intro s hsuf hne2 hpre
    have hlast : s.getLast? = some '"' :=
      (getLast?_of_suffix hsuf hne2).symm.trans (hrefPat_getLast z)
    rw [idPat_eq x] at hpre
    rcases prefix_end_close idHead hpre hne2 hlast (fun c hc => (plain_ne (hx.2 c hc)).1)
      idHead_quote_prefix with hP | hfull
    · subst hP
      rw [hrefPat_eq2 z] at hsuf
      exact absurd (show ((['i', 'd', '='] : List Char) ++ ['"']) <:+ (hrefHead ++ z) ++ ['"']
        from hsuf)
        (end_marker_not_suffix hz.1 hz.2 rfl (by decide))
    · rw [← idPat_eq x] at hfull
      exact hfull

theorem segSafe_id_url {x z : List Char} (hx : nameOk x) (hz : nameOk z) :
    segSafe (idPat x) (urlPat z) := by
  constructor
  · intro hinf
    exact eq_not_mem_urlPat hz.2 (infix_mem hinf (by simp [idPat]))
  · intro s hsuf hne2 hpre
    have hlast : s.getLast? = some ')' :=
      (getLast?_of_suffix hsuf hne2).symm.trans (urlPat_getLast z)
    exact absurd (hpre.subset (mem_of_getLast? hlast)) (paren_not_mem_idPat hx.2)

theorem segSafe_href_id {x z : List Char} (hx : nameOk x) (hz : nameOk z) :
    segSafe (hrefPat x) (idPat z) := by
  constructor
  · intro hinf
    exact hash_not_mem_idPat hz.2 (infix_mem hinf (by simp [hrefPat]))
  · intro s hsuf hne2 hpre
    have hlast : s.getLast? = some '"' :=
      (getLast?_of_suffix hsuf hne2).symm.trans (idPat_getLast z)
    rw [hrefPat_eq x] at hpre
    rcases prefix_end_close ['h', 'r', 'e', 'f', '=', '"'] hpre hne2 hlast
      (fun c hc => (plain_ne (hx.2 c hc)).1) hrefHead_quote_prefix with hP | hfull
    · subst hP
      rw [idPat_eq2 z] at hsuf
      exact absurd (show ((['h', 'r', 'e', 'f', '='] : List Char) ++ ['"']) <:+
          (idHead ++ z) ++ ['"'] from hsuf)
        (end_marker_not_suffix hz.1 hz.2 rfl (by decide))
    · rw [← hrefPat_eq x] at hfull
      exact hfull

theorem segSafe_href_href {x z : List Char} (hx : nameOk x) (hz : nameOk z) (hne : x ≠ z) :
    segSafe (hrefPat x) (hrefPat z) := by
  constructor
  · intro hinf
    rw [hrefPat_eq z] at hinf
    have hpre := infix_to_prefix (by simp [hrefPat]) hinf
      ⟨'=', by simp [hrefPat], not_mem_plain (by decide) hz.2, by decide⟩
      (hhd_hrefHead (Or.inr (Or.inl rfl)))
    rw [← hrefPat_eq z] at hpre
    exact hne (hrefPat_prefix_inj hz.2 hpre)
  · intro s hsuf hne2 hpre
    have hlast : s.getLast? = some '"' :=
      (getLast?_of_suffix hsuf hne2).symm.trans (hrefPat_getLast z)
    rw [hrefPat_eq x] at hpre
    rcases prefix_end_close ['h', 'r', 'e', 'f', '=', '"'] hpre hne2 hlast
      (fun c hc => (plain_ne (hx.2 c hc)).1) hrefHead_quote_prefix with hP | hfull
    · subst hP
      rw [hrefPat_eq2 z] at hsuf
      exact absurd (show ((['h', 'r', 'e', 'f', '='] : List Char) ++ ['"']) <:+
          (hrefHead ++ z) ++ ['"'] from hsuf)
        (end_marker_not_suffix hz.1 hz.2 rfl (by decide))
    · rw [← hrefPat_eq x] at hfull
      exact hfull

theorem segSafe_href_url {x z : List Char} (hx : nameOk x) (hz : nameOk z) :
    segSafe (hrefPat x) (urlPat z) := by
  constructor
  · intro hinf
    exact eq_not_mem_urlPat hz.2 (infix_mem hinf (by simp [hrefPat]))
  · intro s hsuf hne2 hpre
    have hlast : s.getLast? = some ')' :=
      (getLast?_of_suffix hsuf hne2).symm.trans (urlPat_getLast z)
    exact absurd (hpre.subset (mem_of_getLast? hlast)) (paren_not_mem_hrefPat hx.2)

theorem segSafe_url_id {x z : List Char} (hx : nameOk x) (hz : nameOk z) :
    segSafe (urlPat x) (idPat z) := by
  constructor
  · intro hinf
    exact lparen_not_mem_idPat hz.2 (infix_mem hinf (by simp [urlPat]))
  · intro s hsuf hne2 hpre
    have hlast : s.getLast? = some '"' :=
      (getLast?_of_suffix hsuf hne2).symm.trans (idPat_getLast z)
    exact absurd (hpre.subset (mem_of_getLast? hlast)) (quote_not_mem_urlPat hx.2)

theorem segSafe_url_href {x z : List Char} (hx : nameOk x) (hz : nameOk z) :
    segSafe (urlPat x) (hrefPat z) := by
  constructor
  · intro hinf
    exact lparen_not_mem_hrefPat hz.2 (infix_mem hinf (by simp [urlPat]))
  · intro s hsuf hne2 hpre
    have hlast : s.getLast? = some '"' :=
      (getLast?_of_suffix hsuf hne2).symm.trans (hrefPat_getLast z)
    exact absurd (hpre.subset (mem_of_getLast? hlast)) (quote_not_mem_urlPat hx.2)

theorem segSafe_url_url {x z : List Char} (hx : nameOk x) (hz : nameOk z) (hne : x ≠ z) :
    segSafe (urlPat x) (urlPat z) := by
  constructor
  · intro hinf
    rw [urlPat_eq z] at hinf
    have hpre := infix_to_prefix (by simp [urlPat]) hinf
      ⟨'(', by simp [urlPat], not_mem_plain (by decide) hz.2, by decide⟩
      (hhd_urlHead (Or.inr (Or.inr rfl)))
    rw [← urlPat_eq z] at hpre
    exact hne (urlPat_prefix_inj hz.2 hpre)
  · intro s hsuf hne2 hpre
    have hlast : s.getLast? = some ')' :=
      (getLast?_of_suffix hsuf hne2).symm.trans (urlPat_getLast z)
    rw [urlPat_eq x] at hpre
    rcases prefix_end_close (urlPat x) hpre hne2 hlast
      (fun c hc => (plain_ne (hx.2 c hc)).2.2.2.2)
      (fun t ht hn hq => (urlHead_paren_starts t ht hn hq).elim) with hP | hfull
    · exact hP
    · rw [← urlPat_eq x] at hfull
      exact hfull

theorem segSafe_idHead_href {z : List Char} (hz : nameOk z) :
    segSafe idHead (hrefPat z) := by
  constructor
  · intro hinf
    rw [hrefPat_eq z] at hinf
    have hpre := infix_to_prefix (by decide) hinf
      ⟨'=', by decide, not_mem_plain (by decide) hz.2, by decide⟩
      (hhd_hrefHead (Or.inl rfl))
    have h2 := prefix_head_eq hpre (show idHead.head? = some 'i' from rfl)
    rw [show (hrefHead ++ (z ++ ['"'])).head? = some 'h' from rfl] at h2
    exact absurd (Option.some.inj h2) (by decide)
  · intro s hsuf hne2 hpre
    have hlast : s.getLast? = some '"' :=
      (getLast?_of_suffix hsuf hne2).symm.trans (hrefPat_getLast z)
    exact idHead_quote_prefix s hpre hne2 hlast

theorem segSafe_idHead_url {z : List Char} (hz : nameOk z) :
    segSafe idHead (urlPat z) := by
  constructor
  · intro hinf
    exact eq_not_mem_urlPat hz.2 (infix_mem hinf (by decide))
  · intro s hsuf hne2 hpre
    have hlast : s.getLast? = some ')' :=
      (getLast?_of_suffix hsuf hne2).symm.trans (urlPat_getLast z)
    exact absurd (hpre.subset (mem_of_getLast? hlast)) (by decide)

theorem docOk_cons_head {it : SvgItem} {d : List SvgItem} (hd : docOk (it :: d)) :
    itemOk it := hd it (by simp)

theorem docOk_cons_tail {it : SvgItem} {d : List SvgItem} (hd : docOk (it :: d)) :
    docOk d := fun y hy => hd y (List.mem_cons_of_mem _ hy)

theorem segSafe_idPat_item {x : List Char} (hx : nameOk x) {it : SvgItem} (hit : itemOk it)
    (hne : it ≠ .idDecl x) : segSafe (idPat x) (renderItem it) := by
  cases it with
  | text t =>
    have ht : textOk t := hit
    exact segSafe_of_head ⟨x ++ ['"'], rfl⟩ ht.1
      (fun s hs hn => (ht.2.2.2 s ((List.mem_tails s t).mpr hs) hn).1)
  | idDecl z => exact segSafe_id_id hx hit (fun h => hne (by rw [h]))
  | ref z => exact segSafe_id_href hx hit
  | url z => exact segSafe_id_url hx hit

theorem segSafe_hrefPat_item {x : List Char} (hx : nameOk x) {it : SvgItem} (hit : itemOk it)
    (hne : it ≠ .ref x) : segSafe (hrefPat x) (renderItem it) := by
  cases it with
  | text t =>
    have ht : textOk t := hit
    exact segSafe_of_head ⟨x ++ ['"'], rfl⟩ ht.2.1
      (fun s hs hn => (ht.2.2.2 s ((List.mem_tails s t).mpr hs) hn).2.1)
  | idDecl z => exact segSafe_href_id hx hit
  | ref z => exact segSafe_href_href hx hit (fun h => hne (by rw [h]))
  | url z => exact segSafe_href_url hx hit

theorem segSafe_urlPat_item {x : List Char} (hx : nameOk x) {it : SvgItem} (hit : itemOk it)
    (hne : it ≠ .url x) : segSafe (urlPat x) (renderItem it) := by
  cases it with
  | text t =>
    have ht : textOk t := hit
    exact segSafe_of_head ⟨x ++ [')'], rfl⟩ ht.2.2.1
      (fun s hs hn => (ht.2.2.2 s ((List.mem_tails s t).mpr hs) hn).2.2)
  | idDecl z => exact segSafe_url_id hx hit
  | ref z => exact segSafe_url_href hx hit
  | url z => exact segSafe_url_url hx hit (fun h => hne (by rw [h]))

theorem segSafe_idHead_item {it : SvgItem} (hit : itemOk it)
    (hne : ∀ z, it ≠ .idDecl z) : segSafe idHead (renderItem it) := by
  cases it with
  | text t =>
    have ht : textOk t := hit
    exact segSafe_of_head (List.prefix_refl idHead) ht.1
      (fun s hs hn => (ht.2.2.2 s ((List.mem_tails s t).mpr hs) hn).1)
  | idDecl z => exact absurd rfl (hne z)
  | ref z => exact segSafe_idHead_href hit
  | url z => exact segSafe_idHead_url hit

theorem findIds_renderDoc : ∀ {d : List SvgItem}, docOk d →
    findIds (renderDoc d) = docIds d := by
  intro d
  induction d with
  | nil => intro _; rfl
  | cons it d' ih =>
    intro hd
    have hit := docOk_cons_head hd
    have hd' := docOk_cons_tail hd
    rw [show renderDoc (it :: d') = renderItem it ++ renderDoc d' from rfl]
    cases it with
    | idDecl z =>
      rw [show renderItem (SvgItem.idDecl z) = idPat z from rfl,
        findIds_idDecl hit (renderDoc d'), ih hd']
      rfl
    | text t =>
      rw [findIds_skip (renderDoc d')
        (fun k hk => no_match_in_seg
          (segSafe_idHead_item hit (fun z h => SvgItem.noConfusion h)) (renderDoc d') k hk),
        ih hd']
      rfl
    | ref z =>
      rw [findIds_skip (renderDoc d')
        (fun k hk => no_match_in_seg
          (segSafe_idHead_item hit (fun z h => SvgItem.noConfusion h)) (renderDoc d') k hk),
        ih hd']
      rfl
    | url z =>
      rw [findIds_skip (renderDoc d')
        (fun k hk => no_match_in_seg
          (segSafe_idHead_item hit (fun z h => SvgItem.noConfusion h)) (renderDoc d') k hk),
        ih hd']
      rfl

theorem substId_eq (x x' : List Char) : substId x x' (.idDecl x) = .idDecl x' := by
  show (if x = x then SvgItem.idDecl x' else SvgItem.idDecl x) = SvgItem.idDecl x'
  rw [if_pos rfl]

theorem substId_ne {x x' : List Char} {it : SvgItem} (hne : it ≠ .idDecl x) :
    substId x x' it = it := by
  cases it with
  | text t => rfl
  | idDecl z =>
    show (if z = x then SvgItem.idDecl x' else SvgItem.idDecl z) = SvgItem.idDecl z
    rw [if_neg (fun h => hne (by rw [h]))]
  | ref z => rfl
  | url z => rfl

theorem substHref_eq (x x' : List Char) : substHref x x' (.ref x) = .ref x' := by
  show (if x = x then SvgItem.ref x' else SvgItem.ref x) = SvgItem.ref x'
  rw [if_pos rfl]

theorem substHref_ne {x x' : List Char} {it : SvgItem} (hne : it ≠ .ref x) :
    substHref x x' it = it := by
  cases it with
  | text t => rfl
  | ref z =>
    show (if z = x then SvgItem.ref x' else SvgItem.ref z) = SvgItem.ref z
    rw [if_neg (fun h => hne (by rw [h]))]
  | idDecl z => rfl
  | url z => rfl

theorem substUrl_eq (x x' : List Char) : substUrl x x' (.url x) = .url x' := by
  show (if x = x then SvgItem.url x' else SvgItem.url x) = SvgItem.url x'
  rw [if_pos rfl]

theorem substUrl_ne {x x' : List Char} {it : SvgItem} (hne : it ≠ .url x) :
    substUrl x x' it = it := by
  cases it with
  | text t => rfl
  | url z =>
    show (if z = x then SvgItem.url x' else SvgItem.url z) = SvgItem.url z
    rw [if_neg (fun h => hne (by rw [h]))]
  | idDecl z => rfl
  | ref z => rfl

theorem replaceDoc_id (x x' : List Char) (hx : nameOk x) :
    ∀ {d : List SvgItem}, docOk d →
      replaceAll (renderDoc d) (idPat x) (idPat x') = renderDoc (d.map (substId x x')) := by
  intro d
  induction d with
  | nil =>
    intro _
    rw [show renderDoc [] = ([] : List Char) from rfl, replaceAll_nil]
    rfl
  | cons it d' ih =>
    intro hd
    have hit := docOk_cons_head hd
    have hd' := docOk_cons_tail hd
    have hpne : idPat x ≠ [] := by simp [idPat]
    rw [show renderDoc (it :: d') = renderItem it ++ renderDoc d' from rfl]
    by_cases hix : it = .idDecl x
    · subst hix
      rw [show renderItem (SvgItem.idDecl x) = idPat x from rfl,
        replaceAll_head hpne (renderDoc d') (idPat x'), ih hd', List.map_cons, substId_eq]
      rfl
    · rw [replaceAll_skip hpne (idPat x') (renderItem it) (renderDoc d')
        (fun k hk => no_match_in_seg (segSafe_idPat_item hx hit hix) (renderDoc d') k hk),
        ih hd', List.map_cons, substId_ne hix]
      rfl

theorem replaceDoc_href (x x' : List Char) (hx : nameOk x) :
    ∀ {d : List SvgItem}, docOk d →
      replaceAll (renderDoc d) (hrefPat x) (hrefPat x') =
        renderDoc (d.map (substHref x x')) := by
  intro d
  induction d with
  | nil =>
    intro _
    rw [show renderDoc [] = ([] : List Char) from rfl, replaceAll_nil]
    rfl
  | cons it d' ih =>
    intro hd
    have hit := docOk_cons_head hd
    have hd' := docOk_cons_tail hd
    have hpne : hrefPat x ≠ [] := by simp [hrefPat]
    rw [show renderDoc (it :: d') = renderItem it ++ renderDoc d' from rfl]
    by_cases hix : it = .ref x
    · subst hix
      rw [show renderItem (SvgItem.ref x) = hrefPat x from rfl,
        replaceAll_head hpne (renderDoc d') (hrefPat x'), ih hd', List.map_cons, substHref_eq]
      rfl
    · rw [replaceAll_skip hpne (hrefPat x') (renderItem it) (renderDoc d')
        (fun k hk => no_match_in_seg (segSafe_hrefPat_item hx hit hix) (renderDoc d') k hk),
        ih hd', List.map_cons, substHref_ne hix]
      rfl

theorem replaceDoc_url (x x' : List Char) (hx : nameOk x) :
    ∀ {d : List SvgItem}, docOk d →
      replaceAll (renderDoc d) (urlPat x) (urlPat x') =
        renderDoc (d.map (substUrl x x')) := by
  intro d
  induction d with
  | nil =>
    intro _
    rw [show renderDoc [] = ([] : List Char) from rfl, replaceAll_nil]
    rfl
  | cons it d' ih =>
    intro hd
    have hit := docOk_cons_head hd
    have hd' := docOk_cons_tail hd
    have hpne : urlPat x ≠ [] := by simp [urlPat]
    rw [show renderDoc (it :: d') = renderItem it ++ renderDoc d' from rfl]
    by_cases hix : it = .url x
    · subst hix
      rw [show renderItem (SvgItem.url x) = urlPat x from rfl,
        replaceAll_head hpne (renderDoc d') (urlPat x'), ih hd', List.map_cons, substUrl_eq]
      rfl
    · rw [replaceAll_skip hpne (urlPat x') (renderItem it) (renderDoc d')
        (fun k hk => no_match_in_seg (segSafe_urlPat_item hx hit hix) (renderDoc d') k hk),
        ih hd', List.map_cons, substUrl_ne hix]
      rfl

theorem docOk_map_substId {x x' : List Char} (hx' : nameOk x') {d : List SvgItem}
    (hd : docOk d) : docOk (d.map (substId x x')) := by
  intro it hit
  rw [List.mem_map] at hit
  obtain ⟨a, ha, rfl⟩ := hit
  have hia := hd a ha
  cases a with
  | text t => exact hia
  | idDecl z =>
    show itemOk (if z = x then SvgItem.idDecl x' else SvgItem.idDecl z)
    by_cases hz : z = x
    · rw [if_pos hz]
      exact hx'
    · rw [if_neg hz]
      exact hia
  | ref z => exact hia
  | url z => exact hia

theorem docOk_map_substHref {x x' : List Char} (hx' : nameOk x') {d : List SvgItem}
    (hd : docOk d) : docOk (d.map (substHref x x')) := by
  intro it hit
  rw [List.mem_map] at hit
  obtain ⟨a, ha, rfl⟩ := hit
  have hia := hd a ha
  cases a with
  | text t => exact hia
  | ref z =>
    show itemOk (if z = x then SvgItem.ref x' else SvgItem.ref z)
    by_cases hz : z = x
    · rw [if_pos hz]
      exact hx'
    · rw [if_neg hz]
      exact hia
  | idDecl z => exact hia
  | url z => exact hia

theorem docOk_map_substUrl {x x' : List Char} (hx' : nameOk x') {d : List SvgItem}
    (hd : docOk d) : docOk (d.map (substUrl x x')) := by
  intro it hit
  rw [List.mem_map] at hit
  obtain ⟨a, ha, rfl⟩ := hit
  have hia := hd a ha
  cases a with
  | text t => exact hia
  | url z =>
    show itemOk (if z = x then SvgItem.url x' else SvgItem.url z)
    by_cases hz : z = x
    · rw [if_pos hz]
      exact hx'
    · rw [if_neg hz]
      exact hia
  | idDecl z => exact hia
  | ref z => exact hia

theorem docIds_map_substId (x x' : List Char) :
    ∀ d : List SvgItem, docIds (d.map (substId x x')) =
      (docIds d).map (fun z => if z = x then x' else z) := by
  intro d
  induction d with
  | nil => rfl
  | cons a d' ih =>
    rw [List.map_cons]
    cases a with
    | text t => exact ih
    | idDecl z =>
      by_cases hz : z = x
      · rw [show substId x x' (SvgItem.idDecl z) = SvgItem.idDecl x' from by
            show (if z = x then SvgItem.idDecl x' else SvgItem.idDecl z) = SvgItem.idDecl x'
            rw [if_pos hz],
          show docIds (SvgItem.idDecl x' :: List.map (substId x x') d') =
            x' :: docIds (List.map (substId x x') d') from rfl,
          show docIds (SvgItem.idDecl z :: d') = z :: docIds d' from rfl,
          List.map_cons, ih, if_pos hz]
      · rw [show substId x x' (SvgItem.idDecl z) = SvgItem.idDecl z from by
            show (if z = x then SvgItem.idDecl x' else SvgItem.idDecl z) = SvgItem.idDecl z
            rw [if_neg hz],
          show docIds (SvgItem.idDecl z :: List.map (substId x x') d') =
            z :: docIds (List.map (substId x x') d') from rfl,
          show docIds (SvgItem.idDecl z :: d') = z :: docIds d' from rfl,
          List.map_cons, ih, if_neg hz]
    | ref z =>
      by_cases hz : z = x
      · rw [show substId x x' (SvgItem.ref z) = SvgItem.ref z from rfl]
        exact ih
      · rw [show substId x x' (SvgItem.ref z) = SvgItem.ref z from rfl]
        exact ih
    | url z => exact ih

theorem docIds_map_substHref (x x' : List Char) :
    ∀ d : List SvgItem, docIds (d.map (substHref x x')) = docIds d := by
  intro d
  induction d with
  | nil => rfl
  | cons a d' ih =>
    rw [List.map_cons]
    cases a with
    | text t => exact ih
    | idDecl z => exact congrArg (fun l => z :: l) ih
    | ref z =>
      by_cases hz : z = x
      · rw [show substHref x x' (SvgItem.ref z) = SvgItem.ref x' from by
            show (if z = x then SvgItem.ref x' else SvgItem.ref z) = SvgItem.ref x'
            rw [if_pos hz]]
        exact ih
      · rw [show substHref x x' (SvgItem.ref z) = SvgItem.ref z from by
            show (if z = x then SvgItem.ref x' else SvgItem.ref z) = SvgItem.ref z
            rw [if_neg hz]]
        exact ih
    | url z => exact ih

theorem docIds_map_substUrl (x x' : List Char) :
    ∀ d : List SvgItem, docIds (d.map (substUrl x x')) = docIds d := by
  intro d
  induction d with
  | nil => rfl
  | cons a d' ih =>
    rw [List.map_cons]
    cases a with
    | text t => exact ih
    | idDecl z => exact congrArg (fun l => z :: l) ih
    | url z =>
      by_cases hz : z = x
      · rw [show substUrl x x' (SvgItem.url z) = SvgItem.url x' from by
            show (if z = x then SvgItem.url x' else SvgItem.url z) = SvgItem.url x'
            rw [if_pos hz]]
        exact ih
      · rw [show substUrl x x' (SvgItem.url z) = SvgItem.url z from by
            show (if z = x then SvgItem.url x' else SvgItem.url z) = SvgItem.url z
            rw [if_neg hz]]
        exact ih
    | ref z => exact ih

theorem nameOk_append {pfx x : List Char} (hpfx : ∀ c ∈ pfx, plainChar c = true)
    (hx : nameOk x) : nameOk (pfx ++ x) := by
  constructor
  · intro h
    exact hx.1 (List.append_eq_nil.mp h).2
  · intro c hc
    rcases List.mem_append.mp hc with h | h
    · exact hpfx c h
    · exact hx.2 c h

theorem makeIds_fold {pfx : List Char} (hpfx : ∀ c ∈ pfx, plainChar c = true) :
    ∀ (l : List (List Char)) (d : List SvgItem), docOk d → (∀ x ∈ l, nameOk x) →
      List.foldl
        (fun s oldId =>
          replaceAll (replaceAll (replaceAll s (idPat oldId) (idPat (pfx ++ oldId)))
            (hrefPat oldId) (hrefPat (pfx ++ oldId)))
            (urlPat oldId) (urlPat (pfx ++ oldId)))
        (renderDoc d) l =
        renderDoc (prefixFold pfx d l) ∧ docOk (prefixFold pfx d l) := by
  intro l
  induction l with
  | nil =>
    intro d hd _
    exact ⟨rfl, hd⟩
  | cons a l' ih =>
    intro d hd hnames
    have ha : nameOk a := hnames a (by simp)
    have ha' : nameOk (pfx ++ a) := nameOk_append hpfx ha
    have hd1 : docOk (d.map (substId a (pfx ++ a))) := docOk_map_substId ha' hd
    have hd2 : docOk ((d.map (substId a (pfx ++ a))).map (substHref a (pfx ++ a))) :=
      docOk_map_substHref ha' hd1
    have hd3 : docOk (prefixStep pfx d a) := docOk_map_substUrl ha' hd2
    have hstep : replaceAll (replaceAll (replaceAll (renderDoc d) (idPat a)
          (idPat (pfx ++ a))) (hrefPat a) (hrefPat (pfx ++ a)))
          (urlPat a) (urlPat (pfx ++ a)) =
        renderDoc (prefixStep pfx d a) := by
      rw [replaceDoc_id a (pfx ++ a) ha hd, replaceDoc_href a (pfx ++ a) ha hd1,
        replaceDoc_url a (pfx ++ a) ha hd2]
      rfl
    rw [List.foldl_cons, hstep]
    exact ih (prefixStep pfx d a) hd3 (fun y hy => hnames y (List.mem_cons_of_mem _ hy))

theorem prefixFold_ids {pfx : List Char} :
    ∀ (l : List (List Char)) (d : List SvgItem),
      (∀ z ∈ docIds d, z ∈ l ∨ pfx <+: z) →
      ∀ z ∈ docIds (prefixFold pfx d l), pfx <+: z := by
  intro l
  induction l with
  | nil =>
    intro d h z hz
    rcases h z hz with h2 | h2
    · exact absurd h2 (List.not_mem_nil z)
    · exact h2
  | cons a l' ih =>
    intro d h z hz
    refine ih (prefixStep pfx d a) ?_ z hz
    intro y hy
    rw [prefixStep, docIds_map_substUrl, docIds_map_substHref, docIds_map_substId] at hy
    rw [List.mem_map] at hy
    obtain ⟨w, hw, hwe⟩ := hy
    by_cases hwa : w = a
    · rw [if_pos hwa] at hwe
      rw [← hwe]
      exact Or.inr (List.prefix_append pfx a)
    · rw [if_neg hwa] at hwe
      subst hwe
      rcases h w hw with hmem | hpfx2
      · rcases List.mem_cons.mp hmem with h2 | h2
        · exact absurd h2 hwa
        · exact Or.inl h2
      · exact Or.inr hpfx2

theorem dedup_go_acc (x : List Char) :
    ∀ (l : List (List Char)) (acc : List (List Char)), x ∈ acc →
      x ∈ List.foldl (fun acc y => if y ∈ acc then acc else acc ++ [y]) acc l := by
  intro l
  induction l with
  | nil => intro acc h; exact h
  | cons a l' ih =>
    intro acc h
    rw [List.foldl_cons]
    apply ih
    show x ∈ if a ∈ acc then acc else acc ++ [a]
    by_cases ha : a ∈ acc
    · rw [if_pos ha]
      exact h
    · rw [if_neg ha]
      exact List.mem_append.mpr (Or.inl h)

theorem dedup_mem_of_mem {x : List Char} :
    ∀ (l : List (List Char)) (acc : List (List Char)), x ∈ l →
      x ∈ List.foldl (fun acc y => if y ∈ acc then acc else acc ++ [y]) acc l := by
  intro l
  induction l with
  | nil => intro acc h; exact absurd h (List.not_mem_nil x)
  | cons a l' ih =>
    intro acc h
    rw [List.foldl_cons]
    rcases List.mem_cons.mp h with rfl | h2
    · apply dedup_go_acc
      show x ∈ if x ∈ acc then acc else acc ++ [x]
      by_cases hx : x ∈ acc
      · rw [if_pos hx]
        exact hx
      · rw [if_neg hx]
        exact List.mem_append.mpr (Or.inr (by simp))
    · exact ih _ h2

theorem dedup_sub {x : List Char} :
    ∀ (l : List (List Char)) (acc : List (List Char)),
      x ∈ List.foldl (fun acc y => if y ∈ acc then acc else acc ++ [y]) acc l →
      x ∈ acc ∨ x ∈ l := by
  intro l
  induction l with
  | nil => intro acc h; exact Or.inl h
  | cons a l' ih =>
    intro acc h
    rw [List.foldl_cons] at h
    rcases ih _ h with h2 | h2
    · have h3 : x ∈ if a ∈ acc then acc else acc ++ [a] := h2
      by_cases ha : a ∈ acc
      · rw [if_pos ha] at h3
        exact Or.inl h3
      · rw [if_neg ha] at h3
        rcases List.mem_append.mp h3 with h4 | h4
        · exact Or.inl h4
        · exact Or.inr (by simp [List.mem_singleton.mp h4])
    · exact Or.inr (List.mem_cons_of_mem a h2)

theorem mem_dedupLists {l : List (List Char)} {x : List Char} :
    x ∈ dedupLists l ↔ x ∈ l := by
  constructor
  · intro h
    rcases dedup_sub l [] h with h2 | h2
    · exact absurd h2 (List.not_mem_nil x)
    · exact h2
  · intro h
    exact dedup_mem_of_mem l [] h

theorem docIds_nameOk : ∀ {d : List SvgItem}, docOk d → ∀ x ∈ docIds d, nameOk x := by
  intro d
  induction d with
  | nil => intro _ x hx; exact absurd hx (List.not_mem_nil x)
  | cons it d' ih =>
    intro hd x hx
    have hd' := docOk_cons_tail hd
    cases it with
    | idDecl z =>
      rcases List.mem_cons.mp (show x ∈ z :: docIds d' from hx) with rfl | h2
      · exact docOk_cons_head hd
      · exact ih hd' x h2
    | text t => exact ih hd' x hx
    | ref z => exact ih hd' x hx
    | url z => exact ih hd' x hx

theorem makeIdsUnique_eq (svg pfx : List Char) :
    makeIdsUnique svg pfx =
      List.foldl
        (fun s oldId =>
          replaceAll (replaceAll (replaceAll s (idPat oldId) (idPat (pfx ++ oldId)))
            (hrefPat oldId) (hrefPat (pfx ++ oldId)))
            (urlPat oldId) (urlPat (pfx ++ oldId)))
        svg (dedupLists (findIds svg)) := rfl

/-- **C8.** Every embedded vector-asset instance receives a fresh numeric
prefix drawn from a strictly increasing counter, applied consistently to
every internal id and every reference (`href="#..."`, `url(#...)`) within
that one instance, so instances embedded under distinct counter values have
disjoint internal id sets.  Formally: (1) `_get_svg_content` returns the
loaded asset rewritten by `_make_ids_unique` with the prefix `mj{ctr}_` and
advances the counter by one; (2) on any clean structured asset document,
`_make_ids_unique` acts as the document-level renaming `prefixFold`, which
renames each found id and its `href`/`url` references by the same prefixed
name, and every id of the result carries the instance prefix `mj{k}_`;
(3) consequently the id sets of two instances of the same asset produced
with distinct counter values are disjoint. -/
theorem c8_asset_id_disambiguation :
    (∀ (cfg : Renderer) (info : TileInfo) (t : Option String) (c : Nat) (s : String),
        cfg.loadSvg info.asset_name (resolveTheme cfg t) = some s →
        getSvgContent cfg info t c = (String.mk (makeIdsUnique s.data (mjPfx c)), c + 1)) ∧
    (∀ (d : List SvgItem) (k : Nat), docOk d →
        makeIdsUnique (renderDoc d) (mjPfx k) =
          renderDoc (prefixFold (mjPfx k) d (dedupLists (docIds d))) ∧
        ∀ y ∈ findIds (makeIdsUnique (renderDoc d) (mjPfx k)), mjPfx k <+: y) ∧
    (∀ (d : List SvgItem) (a b : Nat) (y : List Char), docOk d → a ≠ b →
        y ∈ findIds (makeIdsUnique (renderDoc d) (mjPfx a)) →
        y ∉ findIds (makeIdsUnique (renderDoc d) (mjPfx b))) := by
  have main : ∀ (d : List SvgItem) (k : Nat), docOk d →
      makeIdsUnique (renderDoc d) (mjPfx k) =
        renderDoc (prefixFold (mjPfx k) d (dedupLists (docIds d))) ∧
      (∀ y ∈ findIds (makeIdsUnique (renderDoc d) (mjPfx k)), mjPfx k <+: y) := by
    intro d k hd
    have hpfx : ∀ c ∈ mjPfx k, plainChar c = true := fun c hc => mjPfx_plain hc
    have hids : findIds (renderDoc d) = docIds d := findIds_renderDoc hd
    have hnames : ∀ x ∈ dedupLists (docIds d), nameOk x :=
      fun x hx => docIds_nameOk hd x (mem_dedupLists.mp hx)
    have hfold := makeIds_fold hpfx (dedupLists (docIds d)) d hd hnames
    have heq : makeIdsUnique (renderDoc d) (mjPfx k) =
        renderDoc (prefixFold (mjPfx k) d (dedupLists (docIds d))) := by
      rw [makeIdsUnique_eq, hids]
      exact hfold.1
    refine ⟨heq, ?_⟩
    intro y hy
    rw [heq, findIds_renderDoc hfold.2] at hy
    exact prefixFold_ids (dedupLists (docIds d)) d
      (fun z hz => Or.inl (mem_dedupLists.mpr hz)) y hy
  refine ⟨?_, fun d k hd => main d k hd, ?_⟩
  · intro cfg info t c s h
    simp only [getSvgContent]
    rw [h]
  · intro d a b y hd hab hya hyb
    exact hab (mjPfx_inj ((main d a hd).2 y hya) ((main d b hd).2 y hyb))

/-- A concrete clean asset document for the C8 witness. -/
def c8Doc : List SvgItem :=
  [.text "<svg>".data, .idDecl "a".data, .text "<use ".data, .ref "a".data,
   .text "/>".data, .url "a".data, .text "</svg>".data]

def c8Renderer : Renderer := { loadSvg := fun _ _ => some "<svg/>" }

def c8Info : TileInfo := { asset_name := "man1", display_name := "Man 1" }

theorem c8_asset_id_disambiguation_witness :
    docOk c8Doc ∧ (0 : Nat) ≠ 1 ∧
    getSvgContent c8Renderer c8Info none 0 =
      (String.mk (makeIdsUnique ("<svg/>" : String).data (mjPfx 0)), 0 + 1) ∧
    ['m', 'j', '0', '_', 'a'] ∈ findIds (makeIdsUnique (renderDoc c8Doc) (mjPfx 0)) ∧
    ['m', 'j', '0', '_', 'a'] ∉ findIds (makeIdsUnique (renderDoc c8Doc) (mjPfx 1)) :=
  ⟨by decide, by decide,
    c8_asset_id_disambiguation.1 c8Renderer c8Info none 0 "<svg/>" rfl,
    by decide,
    c8_asset_id_disambiguation.2.2 c8Doc 0 1 ['m', 'j', '0', '_', 'a'] (by decide) (by decide)
      (by decide)⟩
